import Mathlib

/-!
Verification of the intrusive circular doubly-linked list primitive of
`src/lib/list.h` (Open vSwitch `struct ovs_list`).

The heap of list nodes is modelled as a total map from node addresses
(natural numbers) to a pair of `prev`/`next` pointers.  Every function of
`list.h` is transliterated statement by statement: each C assignment
`x->f = e` becomes a functional heap update, and every pointer read is
performed against the heap state current at that point of the C code.
-/

/-- A list node: the embedded `prev`/`next` link pair of `struct ovs_list`. -/
structure Node where
  prev : Nat
  next : Nat
deriving DecidableEq, Repr

/-- The heap: a total map from node addresses to nodes. -/
def Heap : Type := Nat → Node

/-- `a->prev = v`. -/
def setPrev (h : Heap) (a v : Nat) : Heap :=
  fun b => if b = a then { h b with prev := v } else h b

/-- `a->next = v`. -/
def setNext (h : Heap) (a v : Nat) : Heap :=
  fun b => if b = a then { h b with next := v } else h b

theorem setPrev_self (h : Heap) (a v : Nat) : setPrev h a v a = { h a with prev := v } := by
  simp [setPrev]

theorem setPrev_ne (h : Heap) (a v b : Nat) (hb : b ≠ a) : setPrev h a v b = h b := by
  simp [setPrev, hb]

theorem setPrev_next (h : Heap) (a v b : Nat) : (setPrev h a v b).next = (h b).next := by
  unfold setPrev; split <;> simp_all

theorem setNext_self (h : Heap) (a v : Nat) : setNext h a v a = { h a with next := v } := by
  simp [setNext]

theorem setNext_ne (h : Heap) (a v b : Nat) (hb : b ≠ a) : setNext h a v b = h b := by
  simp [setNext, hb]

theorem setNext_prev (h : Heap) (a v b : Nat) : (setNext h a v b).prev = (h b).prev := by
  unfold setNext; split <;> simp_all

/-! ### The operations of `list.h` -/

/-- `list_init`: `list->next = list->prev = list;`. -/
def list_init (h : Heap) (l : Nat) : Heap :=
  fun b => if b = l then { prev := l, next := l } else h b

/-- `list_insert(before, elem)`:
```
elem->prev = before->prev;
elem->next = before;
before->prev->next = elem;
before->prev = elem;
``` -/
def list_insert (h : Heap) (before elem : Nat) : Heap :=
  let h1 := setPrev h elem ((h before).prev)
  let h2 := setNext h1 elem before
  let h3 := setNext h2 ((h2 before).prev) elem
  setPrev h3 before elem

/-- `list_splice(before, first, last)`:
```
if (first == last) { return; }
last = last->prev;
first->prev->next = last->next;
last->next->prev = first->prev;
first->prev = before->prev;
last->next = before;
before->prev->next = first;
before->prev = last;
``` -/
def list_splice (h : Heap) (before first last0 : Nat) : Heap :=
  if first = last0 then h
  else
    let last := (h last0).prev
    let h1 := setNext h ((h first).prev) ((h last).next)
    let h2 := setPrev h1 ((h1 last).next) ((h1 first).prev)
    let h3 := setPrev h2 first ((h2 before).prev)
    let h4 := setNext h3 last before
    let h5 := setNext h4 ((h4 before).prev) first
    setPrev h5 before last

/-- `list_push_front(list, elem)`: `list_insert(list->next, elem)`. -/
def list_push_front (h : Heap) (l elem : Nat) : Heap :=
  list_insert h ((h l).next) elem

/-- `list_push_back(list, elem)`: `list_insert(list, elem)`. -/
def list_push_back (h : Heap) (l elem : Nat) : Heap :=
  list_insert h l elem

/-- `list_replace(element, position)`:
```
element->next = position->next;
element->next->prev = element;
element->prev = position->prev;
element->prev->next = element;
``` -/
def list_replace (h : Heap) (element position : Nat) : Heap :=
  let h1 := setNext h element ((h position).next)
  let h2 := setPrev h1 ((h1 element).next) element
  let h3 := setPrev h2 element ((h2 position).prev)
  setNext h3 ((h3 element).prev) element

/-- `list_moved(list)`: `list->prev->next = list->next->prev = list;`
(the chained assignment performs `list->next->prev = list` first). -/
def list_moved (h : Heap) (l : Nat) : Heap :=
  let h1 := setPrev h ((h l).next) l
  setNext h1 ((h1 l).prev) l

/-- `list_is_empty(list)`: `list->next == list`. -/
def list_is_empty (h : Heap) (l : Nat) : Bool :=
  (h l).next = l

/-- `list_move(dst, src)`:
```
if (!list_is_empty(src)) { *dst = *src; list_moved(dst); }
else { list_init(dst); }
``` -/
def list_move (h : Heap) (dst src : Nat) : Heap :=
  if ¬ list_is_empty h src then
    list_moved (fun b => if b = dst then h src else h b) dst
  else
    list_init h dst

/-- `list_remove(elem)`: returns the updated heap and the returned pointer:
```
elem->prev->next = elem->next;
elem->next->prev = elem->prev;
return elem->next;
``` -/
def list_remove (h : Heap) (elem : Nat) : Heap × Nat :=
  let h1 := setNext h ((h elem).prev) ((h elem).next)
  let h2 := setPrev h1 ((h1 elem).next) ((h1 elem).prev)
  (h2, (h2 elem).next)

/-- `list_pop_front(list)`. -/
def list_pop_front (h : Heap) (l : Nat) : Heap × Nat :=
  let front := (h l).next
  ((list_remove h front).1, front)

/-- `list_pop_back(list)`. -/
def list_pop_back (h : Heap) (l : Nat) : Heap × Nat :=
  let back := (h l).prev
  ((list_remove h back).1, back)

/-- `list_front(list)`: `ovs_assert(!list_is_empty(list)); return list->next;`.
The failed assertion is modelled as `none`. -/
def list_front (h : Heap) (l : Nat) : Option Nat :=
  if list_is_empty h l then none else some ((h l).next)

/-- `list_back(list)`: `ovs_assert(!list_is_empty(list)); return list->prev;`. -/
def list_back (h : Heap) (l : Nat) : Option Nat :=
  if list_is_empty h l then none else some ((h l).prev)

/-- The counting loop of `list_size`, with explicit fuel (the C loop relies on
well-formedness of the ring for termination). -/
def list_size_aux (h : Heap) (l : Nat) : Nat → Nat → Nat
  | _, 0 => 0
  | e, fuel + 1 => if e = l then 0 else 1 + list_size_aux h l ((h e).next) fuel

/-- `list_size(list)`: `for (e = list->next; e != list; e = e->next) cnt++;`. -/
def list_size (h : Heap) (l : Nat) (fuel : Nat) : Nat :=
  list_size_aux h l ((h l).next) fuel

/-- `list_is_short(list)`: `list->next == list->prev`. -/
def list_is_short (h : Heap) (l : Nat) : Bool :=
  (h l).next = (h l).prev

/-- `list_is_singleton(list)`: `list_is_short(list) && !list_is_empty(list)`. -/
def list_is_singleton (h : Heap) (l : Nat) : Bool :=
  list_is_short h l && ! list_is_empty h l

/-! ### Paths and rings -/

/-- `lastD p xs`: the last element of `p :: xs`. -/
def lastD (p : Nat) : List Nat → Nat
  | [] => p
  | x :: xs => lastD x xs

/-- `pathOk h p xs`: starting at node `p`, the nodes of `xs` follow in order,
with each consecutive pair `(a, b)` satisfying `a.next = b` and `b.prev = a`. -/
def pathOk (h : Heap) : Nat → List Nat → Bool
  | _, [] => true
  | p, x :: xs => (h p).next = x && (h x).prev = p && pathOk h x xs

/-- `reps h l xs`: in heap `h` the header `l` heads a well-formed circular
list whose elements, in order, are `xs`. -/
def reps (h : Heap) (l : Nat) (xs : List Nat) : Prop :=
  (l :: xs).Nodup ∧ pathOk h l (xs ++ [l]) = true

instance (h : Heap) (l : Nat) (xs : List Nat) : Decidable (reps h l xs) := by
  unfold reps; infer_instance

theorem lastD_mem (p : Nat) (xs : List Nat) : lastD p xs ∈ p :: xs := by
  induction xs generalizing p with
  | nil => simp [lastD]
  | cons x xs ih =>
    rcases List.mem_cons.mp (ih x) with h | h
    · simp [lastD, h]
    · simp only [lastD]
      exact List.mem_cons_of_mem _ (List.mem_cons_of_mem _ h)

theorem lastD_append (p : Nat) (xs ys : List Nat) :
    lastD p (xs ++ ys) = lastD (lastD p xs) ys := by
  induction xs generalizing p with
  | nil => simp [lastD]
  | cons x xs ih => simp [lastD, ih]

theorem lastD_concat (p q : Nat) (xs : List Nat) : lastD p (xs ++ [q]) = q := by
  simp [lastD_append, lastD]

theorem pathOk_append (h : Heap) (xs ys : List Nat) (p : Nat) :
    pathOk h p (xs ++ ys) = (pathOk h p xs && pathOk h (lastD p xs) ys) := by
  induction xs generalizing p with
  | nil => simp [pathOk, lastD]
  | cons x xs ih =>
    simp only [List.cons_append, pathOk, lastD, List.append_eq, ih x, Bool.and_assoc]

theorem headD_concat (ys : List Nat) (l d : Nat) : (ys ++ [l]).headD d = ys.headD l := by
  cases ys <;> simp

/-- If `h` and `h2` fully agree on all nodes of `p :: xs`, the path predicate
is unchanged. -/
theorem pathOk_congr (h h2 : Heap) (xs : List Nat) (p : Nat)
    (hag : ∀ a ∈ p :: xs, h2 a = h a) :
    pathOk h2 p xs = pathOk h p xs := by
  induction xs generalizing p with
  | nil => simp [pathOk]
  | cons x xs ih =>
    have hp : h2 p = h p := hag p (by simp)
    have hx : h2 x = h x := hag x (by simp)
    have := ih x fun a ha => hag a (List.mem_cons_of_mem p ha)
    simp [pathOk, hp, hx, this]

/-- A `prev` update at a node outside the path's `prev`-read set. -/
theorem pathOk_setPrev (h : Heap) (xs : List Nat) (p a v : Nat) (ha : a ∉ xs) :
    pathOk (setPrev h a v) p xs = pathOk h p xs := by
  induction xs generalizing p with
  | nil => simp [pathOk]
  | cons x xs ih =>
    have hxa : x ≠ a := by intro he; exact ha (by simp [he])
    have := ih x (fun hm => ha (by simp [hm]))
    simp [pathOk, setPrev_next, setPrev_ne h a v x hxa, this]

/-- A `next` update at a node outside the path's `next`-read set. -/
theorem pathOk_setNext (h : Heap) (xs : List Nat) (p a v : Nat)
    (ha : a ∉ (p :: xs).dropLast) :
    pathOk (setNext h a v) p xs = pathOk h p xs := by
  induction xs generalizing p with
  | nil => simp [pathOk]
  | cons x xs ih =>
    have hpa : p ≠ a := by
      intro he; apply ha; cases xs <;> simp [he]
    have hrest : a ∉ (x :: xs).dropLast := by
      intro hm; apply ha
      cases xs with
      | nil => simp at hm
      | cons y ys => simp_all [List.dropLast]
    have := ih x hrest
    simp [pathOk, setNext_prev, setNext_ne h a v p hpa, this]

/-- A full-node update at a node not on the path. -/
theorem pathOk_update (h : Heap) (xs : List Nat) (p a : Nat) (v : Node)
    (ha : a ∉ p :: xs) :
    pathOk (fun b => if b = a then v else h b) p xs = pathOk h p xs := by
  apply pathOk_congr
  intro b hb
  have : b ≠ a := by rintro rfl; exact ha hb
  simp [this]

theorem lastD_not_mem_dropLast (p : Nat) (xs : List Nat) (hnd : (p :: xs).Nodup) :
    lastD p xs ∉ (p :: xs).dropLast := by
  induction xs generalizing p with
  | nil => simp [lastD]
  | cons x xs ih =>
    have hnd2 : (x :: xs).Nodup := (List.nodup_cons.mp hnd).2
    have hpx : p ∉ x :: xs := (List.nodup_cons.mp hnd).1
    have hmem : lastD x xs ∈ x :: xs := lastD_mem x xs
    intro hm
    have hlast : lastD p (x :: xs) = lastD x xs := rfl
    rw [hlast] at hm
    have hdl : (p :: x :: xs).dropLast = p :: (x :: xs).dropLast := by
      cases xs <;> rfl
    rw [hdl] at hm
    rcases List.mem_cons.mp hm with he | hm2
    · exact hpx (he ▸ hmem)
    · exact ih x hnd2 hm2

/-! ### Normal forms of the operations

Each lemma resolves the sequential pointer reads of the C code against the
initial heap, under the aliasing side conditions that hold in every
well-formed call. -/

theorem list_insert_eq (h : Heap) (before elem : Nat) (hne : elem ≠ before) :
    list_insert h before elem =
      setPrev (setNext (setNext (setPrev h elem ((h before).prev)) elem before)
        ((h before).prev) elem) before elem := by
  simp only [list_insert]
  have hb : ((setNext (setPrev h elem ((h before).prev)) elem before) before).prev
      = (h before).prev := by
    rw [setNext_prev, setPrev_ne _ _ _ _ (Ne.symm hne)]
  rw [hb]

theorem list_remove_eq (h : Heap) (elem : Nat) (hp : (h elem).prev ≠ elem) :
    list_remove h elem =
      (setPrev (setNext h ((h elem).prev) ((h elem).next)) ((h elem).next) ((h elem).prev),
       (h elem).next) := by
  simp only [list_remove]
  have h1 : (setNext h ((h elem).prev) ((h elem).next)) elem = h elem :=
    setNext_ne _ _ _ _ (Ne.symm hp)
  rw [h1]
  have h2 : (setPrev (setNext h ((h elem).prev) ((h elem).next)) ((h elem).next)
      ((h elem).prev) elem).next = (h elem).next := by
    rw [setPrev_next, h1]
  rw [h2]

theorem list_remove_fst (h : Heap) (elem : Nat) (hp : (h elem).prev ≠ elem) :
    (list_remove h elem).1 =
      setPrev (setNext h ((h elem).prev) ((h elem).next)) ((h elem).next) ((h elem).prev) := by
  rw [list_remove_eq h elem hp]

theorem list_remove_snd (h : Heap) (elem : Nat) (hp : (h elem).prev ≠ elem) :
    (list_remove h elem).2 = (h elem).next := by
  rw [list_remove_eq h elem hp]

theorem list_splice_eq (h : Heap) (before first last0 : Nat)
    (hfl : first ≠ last0)
    (hb1 : before ≠ (h ((h last0).prev)).next)
    (hb2 : before ≠ first) :
    list_splice h before first last0 =
      setPrev (setNext (setNext (setPrev (setPrev (setNext h ((h first).prev)
        ((h ((h last0).prev)).next)) ((h ((h last0).prev)).next) ((h first).prev))
        first ((h before).prev)) ((h last0).prev) before) ((h before).prev) first)
        before ((h last0).prev) := by
  simp only [list_splice]
  rw [if_neg hfl]
  have e1 : ∀ v : Nat,
      ((setNext h ((h first).prev) v) ((h last0).prev)).next
        = if (h last0).prev = (h first).prev then v else (h ((h last0).prev)).next := by
    intro v
    by_cases hc : (h last0).prev = (h first).prev
    · rw [hc]; simp [setNext_self]
    · rw [setNext_ne _ _ _ _ hc, if_neg hc]
  have e1' : ((setNext h ((h first).prev) ((h ((h last0).prev)).next)) ((h last0).prev)).next
      = (h ((h last0).prev)).next := by
    rw [e1]; split <;> rfl
  have e2 : ((setNext h ((h first).prev) ((h ((h last0).prev)).next)) first).prev
      = (h first).prev := by rw [setNext_prev]
  rw [e1', e2]
  have e3 : ((setPrev (setNext h ((h first).prev) ((h ((h last0).prev)).next))
      ((h ((h last0).prev)).next) ((h first).prev)) before).prev = (h before).prev := by
    rw [setPrev_ne _ _ _ _ hb1, setNext_prev]
  rw [e3]
  have e4 : ((setNext (setPrev (setPrev (setNext h ((h first).prev)
      ((h ((h last0).prev)).next)) ((h ((h last0).prev)).next) ((h first).prev))
      first ((h before).prev)) ((h last0).prev) before) before).prev = (h before).prev := by
    rw [setNext_prev, setPrev_ne _ _ _ _ hb2, setPrev_ne _ _ _ _ hb1, setNext_prev]
  rw [e4]

theorem list_replace_eq (h : Heap) (element position : Nat)
    (hpn : (h position).next ≠ position) :
    list_replace h element position =
      setNext (setPrev (setPrev (setNext h element ((h position).next))
        ((h position).next) element) element ((h position).prev))
        ((h position).prev) element := by
  simp only [list_replace]
  have e1 : ((setNext h element ((h position).next)) element).next = (h position).next := by
    rw [setNext_self]
  rw [e1]
  have e2 : ((setPrev (setNext h element ((h position).next)) ((h position).next) element)
      position).prev = (h position).prev := by
    rw [setPrev_ne _ _ _ _ (Ne.symm hpn), setNext_prev]
  rw [e2]
  have e3 : ((setPrev (setPrev (setNext h element ((h position).next)) ((h position).next)
      element) element ((h position).prev)) element).prev = (h position).prev := by
    rw [setPrev_self]
  rw [e3]

theorem list_moved_eq (h : Heap) (l : Nat) (hne : (h l).next ≠ l) :
    list_moved h l = setNext (setPrev h ((h l).next) l) ((h l).prev) l := by
  simp only [list_moved]
  have e1 : ((setPrev h ((h l).next) l) l).prev = (h l).prev := by
    rw [setPrev_ne _ _ _ _ (Ne.symm hne)]
  rw [e1]

/-! ### Derived facts about well-formed rings -/

theorem pathOk_close_iff (h : Heap) (l : Nat) (xs : List Nat) :
    pathOk h l (xs ++ [l]) = true ↔
      (pathOk h l xs = true ∧ (h (lastD l xs)).next = l ∧ (h l).prev = lastD l xs) := by
  simp only [pathOk_append, pathOk, Bool.and_eq_true, decide_eq_true_eq, and_true]

theorem pathOk_ring_iff (h : Heap) (l a : Nat) (xs ys : List Nat) :
    pathOk h l ((xs ++ a :: ys) ++ [l]) = true ↔
      (pathOk h l xs = true ∧ (h (lastD l xs)).next = a ∧ (h a).prev = lastD l xs ∧
       pathOk h a ys = true ∧ (h (lastD a ys)).next = l ∧ (h l).prev = lastD a ys) := by
  simp only [List.append_assoc, List.cons_append, pathOk_append, pathOk, lastD_append, lastD,
    Bool.and_eq_true, decide_eq_true_eq, and_true]
  tauto

theorem ring_rot_perm (l a : Nat) (xs ys : List Nat) :
    (l :: (xs ++ a :: ys)).Perm (a :: (ys ++ l :: xs)) := by
  rw [List.perm_iff_count]
  intro b
  simp [List.count_cons, List.count_append]
  omega

theorem reps_rot (h : Heap) (l a : Nat) (xs ys : List Nat)
    (hr : reps h l (xs ++ a :: ys)) : reps h a (ys ++ l :: xs) := by
  obtain ⟨hnd, hpath⟩ := hr
  constructor
  · exact ((ring_rot_perm l a xs ys).nodup_iff).mp hnd
  · rw [pathOk_ring_iff] at hpath
    rw [pathOk_ring_iff]
    tauto

theorem reps_rot_of_mem (h : Heap) (l : Nat) (zs : List Nat) (a : Nat)
    (hr : reps h l zs) (ha : a ∈ l :: zs) :
    ∃ ws : List Nat, reps h a ws ∧ (a :: ws).Perm (l :: zs) ∧ ws.length = zs.length := by
  rcases List.mem_cons.mp ha with he | hm
  · subst he; exact ⟨zs, hr, .refl _, rfl⟩
  · obtain ⟨u, v, rfl⟩ := List.append_of_mem hm
    refine ⟨v ++ l :: u, reps_rot h l a u v hr, (ring_rot_perm l a u v).symm, ?_⟩
    simp only [List.length_append, List.length_cons]
    omega

theorem reps_next_head (h : Heap) (l : Nat) (zs : List Nat) (hr : reps h l zs) :
    (h l).next = zs.headD l ∧ (h (zs.headD l)).prev = l := by
  obtain ⟨hnd, hpath⟩ := hr
  cases zs with
  | nil =>
    simp only [List.nil_append, pathOk, Bool.and_eq_true, decide_eq_true_eq] at hpath
    simpa using ⟨hpath.1.1, hpath.1.2⟩
  | cons z zs' =>
    simp only [List.cons_append, pathOk, Bool.and_eq_true, decide_eq_true_eq] at hpath
    simpa using ⟨hpath.1.1, hpath.1.2⟩

theorem reps_prev_last (h : Heap) (l : Nat) (zs : List Nat) (hr : reps h l zs) :
    (h l).prev = lastD l zs ∧ (h (lastD l zs)).next = l := by
  have hpath := hr.2
  rw [pathOk_close_iff] at hpath
  tauto

theorem reps_closed (h : Heap) (l : Nat) (zs : List Nat) (a : Nat)
    (hr : reps h l zs) (ha : a ∈ l :: zs) :
    (h a).next ∈ l :: zs ∧ (h a).prev ∈ l :: zs := by
  obtain ⟨ws, hw, hperm, _⟩ := reps_rot_of_mem h l zs a hr ha
  have hmem : ∀ b, b ∈ a :: ws → b ∈ l :: zs := fun b hb => hperm.mem_iff.mp hb
  have h1 := reps_next_head h a ws hw
  have h2 := reps_prev_last h a ws hw
  constructor
  · apply hmem; rw [h1.1]; cases ws <;> simp
  · apply hmem; rw [h2.1]; exact lastD_mem a ws

theorem pathOk_unique (h : Heap) (a : Nat) :
    ∀ (ys zs : List Nat) (p : Nat), pathOk h p (ys ++ [a]) = true →
      pathOk h p (zs ++ [a]) = true → a ∉ ys → a ∉ zs → ys = zs := by
  intro ys
  induction ys with
  | nil =>
    intro zs p h1 h2 _ hz
    cases zs with
    | nil => rfl
    | cons z zs' =>
      exfalso
      simp only [List.nil_append, List.cons_append, pathOk, Bool.and_eq_true,
        decide_eq_true_eq] at h1 h2
      apply hz
      have hza : z = a := by rw [← h2.1.1, h1.1.1]
      simp [hza]
  | cons y ys' ih =>
    intro zs p h1 h2 hy hz
    cases zs with
    | nil =>
      exfalso
      simp only [List.nil_append, List.cons_append, pathOk, Bool.and_eq_true,
        decide_eq_true_eq] at h1 h2
      apply hy
      have hya : y = a := by rw [← h1.1.1, h2.1.1]
      simp [hya]
    | cons z zs' =>
      simp only [List.cons_append, pathOk, Bool.and_eq_true, decide_eq_true_eq] at h1 h2
      have hyz : y = z := by rw [← h1.1.1, h2.1.1]
      subst hyz
      have := ih zs' y h1.2 h2.2 (fun hm => hy (by simp [hm])) (fun hm => hz (by simp [hm]))
      rw [this]

theorem reps_unique (h : Heap) (a : Nat) (ys zs : List Nat)
    (h1 : reps h a ys) (h2 : reps h a zs) : ys = zs := by
  have hy : a ∉ ys := (List.nodup_cons.mp h1.1).1
  have hz : a ∉ zs := (List.nodup_cons.mp h2.1).1
  exact pathOk_unique h a ys zs a h1.2 h2.2 hy hz

/-- `k` steps along `next` pointers: the traversal of `LIST_FOR_EACH`. -/
def iterNext (h : Heap) : Nat → Nat → Nat
  | a, 0 => a
  | a, k + 1 => iterNext h ((h a).next) k

theorem pathOk_iterNext (h : Heap) :
    ∀ (ys : List Nat) (p : Nat), pathOk h p ys = true →
      iterNext h p ys.length = lastD p ys := by
  intro ys
  induction ys with
  | nil => intro p _; rfl
  | cons y ys ih =>
    intro p hp
    simp only [pathOk, Bool.and_eq_true, decide_eq_true_eq] at hp
    simp only [List.length_cons, iterNext, lastD, hp.1.1]
    exact ih y hp.2

theorem reps_iterNext (h : Heap) (l : Nat) (zs : List Nat) (a : Nat)
    (hr : reps h l zs) (ha : a ∈ l :: zs) :
    iterNext h a (zs.length + 1) = a := by
  obtain ⟨ws, hw, _, hlen⟩ := reps_rot_of_mem h l zs a hr ha
  have hi := pathOk_iterNext h (ws ++ [a]) a hw.2
  rw [lastD_concat] at hi
  have : (ws ++ [a]).length = zs.length + 1 := by simp [hlen]
  rw [this] at hi
  exact hi

theorem reps_prev_inverse (h : Heap) (l : Nat) (zs : List Nat) (a : Nat)
    (hr : reps h l zs) (ha : a ∈ l :: zs) :
    (h ((h a).next)).prev = a := by
  obtain ⟨ws, hw, _, _⟩ := reps_rot_of_mem h l zs a hr ha
  have h1 := reps_next_head h a ws hw
  rw [h1.1]
  exact h1.2

theorem pathOk_size (h : Heap) (l : Nat) :
    ∀ (ys : List Nat) (p : Nat) (fuel : Nat), pathOk h p (ys ++ [l]) = true → l ∉ ys →
      ys.length ≤ fuel → list_size_aux h l ((h p).next) fuel = ys.length := by
  intro ys
  induction ys with
  | nil =>
    intro p fuel hp _ _
    simp only [List.nil_append, pathOk, Bool.and_eq_true, decide_eq_true_eq] at hp
    rw [hp.1.1]
    cases fuel <;> simp [list_size_aux]
  | cons y ys ih =>
    intro p fuel hp hl hf
    simp only [List.cons_append, pathOk, Bool.and_eq_true, decide_eq_true_eq] at hp
    rw [hp.1.1]
    cases fuel with
    | zero => exact absurd hf (by simp)
    | succ f =>
      have hyl : y ≠ l := fun he => hl (by simp [he])
      simp only [list_size_aux, if_neg hyl, List.length_cons]
      rw [ih y f hp.2 (fun hm => hl (by simp [hm])) (by simpa using hf)]
      omega

theorem reps_size (h : Heap) (l : Nat) (zs : List Nat) (fuel : Nat)
    (hr : reps h l zs) (hf : zs.length ≤ fuel) : list_size h l fuel = zs.length := by
  have hl : l ∉ zs := (List.nodup_cons.mp hr.1).1
  unfold list_size
  exact pathOk_size h l zs l fuel hr.2 hl hf

theorem reps_congr (h h2 : Heap) (l : Nat) (xs : List Nat)
    (hag : ∀ a, a ∈ l :: xs → h2 a = h a) : reps h2 l xs ↔ reps h l xs := by
  unfold reps
  have hp : pathOk h2 l (xs ++ [l]) = pathOk h l (xs ++ [l]) := by
    apply pathOk_congr
    intro a ha
    apply hag
    rcases List.mem_cons.mp ha with he | hm
    · simp [he]
    · rcases List.mem_append.mp hm with h1 | h1
      · exact List.mem_cons_of_mem _ h1
      · simp at h1; simp [h1]
  rw [hp]

theorem mem_of_mem_dropLast (a : Nat) (zs : List Nat) (hm : a ∈ zs.dropLast) : a ∈ zs :=
  (List.dropLast_sublist zs).subset hm

/-! ### Specification of `list_insert`

Inserting a fresh node `elem` just before the node at the split point of
`xs ++ ys` (the header itself when `ys = []`) yields the ring `xs ++ elem :: ys`,
and touches no node outside the ring and `elem`. -/

theorem reps_insert (h : Heap) (l : Nat) (xs ys : List Nat) (elem : Nat)
    (hr : reps h l (xs ++ ys)) (he : elem ∉ l :: (xs ++ ys)) :
    reps (list_insert h (ys.headD l) elem) l (xs ++ elem :: ys) ∧
    (∀ a, a ∉ elem :: l :: (xs ++ ys) → list_insert h (ys.headD l) elem a = h a) := by
  obtain ⟨hnd, hpath⟩ := hr
  -- decompose the freshness and distinctness facts
  have hlring : l ∉ xs ++ ys := (List.nodup_cons.mp hnd).1
  have hnd2 : (xs ++ ys).Nodup := (List.nodup_cons.mp hnd).2
  have hlx : l ∉ xs := fun hm => hlring (List.mem_append.mpr (Or.inl hm))
  have hly : l ∉ ys := fun hm => hlring (List.mem_append.mpr (Or.inr hm))
  have hdisj : ∀ a, a ∈ xs → a ∉ ys := fun a ha hb =>
    (List.nodup_append.mp hnd2).2.2 ha hb
  have hex : elem ∉ xs := fun hm => he (by simp [List.mem_append, hm])
  have hey : elem ∉ ys := fun hm => he (by simp [List.mem_append, hm])
  have hel : elem ≠ l := fun hm => he (by simp [hm])
  -- destructure ys ++ [l] as b :: tl
  obtain ⟨b, tl, hys⟩ : ∃ b tl, ys ++ [l] = b :: tl := by
    cases ys <;> exact ⟨_, _, rfl⟩
  have hb : ys.headD l = b := by
    have := headD_concat ys l 0
    rw [hys] at this
    simpa using this.symm
  have hbly : b ∈ l :: ys := by
    rw [← hb]; cases ys <;> simp
  have hbring : b ∈ l :: (xs ++ ys) := by
    rcases List.mem_cons.mp hbly with hc | hc
    · simp [hc]
    · simp [List.mem_append, hc]
  have hbnx : b ∉ xs := by
    rcases List.mem_cons.mp hbly with hc | hc
    · rw [hc]; exact hlx
    · exact fun hm => hdisj b hm hc
  have heb : elem ≠ b := fun hm => he (hm ▸ hbring)
  -- the split of the original ring at the insertion point
  have hpa := hpath
  rw [List.append_assoc, pathOk_append] at hpa
  have hx : pathOk h l xs = true := (Bool.and_eq_true _ _ |>.mp hpa).1
  have hyl : pathOk h (lastD l xs) (ys ++ [l]) = true := (Bool.and_eq_true _ _ |>.mp hpa).2
  have hpamem : lastD l xs ∈ l :: (xs ++ ys) := by
    rcases List.mem_cons.mp (lastD_mem l xs) with hc | hc
    · simp [hc]
    · simp [List.mem_append, hc]
  have hepa : elem ≠ lastD l xs := fun hm => he (hm ▸ hpamem)
  have hpany : lastD l xs ∉ ys := by
    rcases List.mem_cons.mp (lastD_mem l xs) with hc | hc
    · rw [hc]; exact hly
    · exact fun hm => hdisj _ hc hm
  rw [hys] at hyl
  simp only [pathOk, Bool.and_eq_true, decide_eq_true_eq] at hyl
  obtain ⟨⟨hpab, hbpa⟩, htl⟩ := hyl
  -- normalize the heap produced by list_insert
  have hprev : (h b).prev = lastD l xs := hbpa
  rw [hb, list_insert_eq h b elem heb, hprev]
  have hndtl : (b :: tl).Nodup := by
    rw [← hys]
    rw [List.nodup_append]
    refine ⟨(List.nodup_append.mp hnd2).2.1, by simp, ?_⟩
    intro a ha
    simp only [List.mem_singleton]
    rintro rfl
    exact hly ha
  have hbtl : b ∉ tl := (List.nodup_cons.mp hndtl).1
  have hdltl : (b :: tl).dropLast = ys := by
    rw [← hys, List.dropLast_concat]
  constructor
  · constructor
    · -- Nodup of the new ring
      have hperm : (l :: (xs ++ elem :: ys)).Perm (elem :: l :: (xs ++ ys)) := by
        rw [List.perm_iff_count]
        intro c
        simp [List.count_cons, List.count_append]
        omega
      exact hperm.nodup_iff.mpr (List.nodup_cons.mpr ⟨he, hnd⟩)
    · -- the new ring path
      have hringeq : (xs ++ elem :: ys) ++ [l] = xs ++ elem :: b :: tl := by
        rw [List.append_assoc, List.cons_append, hys]
      rw [hringeq, pathOk_append]
      simp only [pathOk, Bool.and_eq_true, decide_eq_true_eq]
      refine ⟨?_, ⟨?_, ?_⟩, ⟨?_, ?_⟩, ?_⟩
      · -- pathOk of xs is untouched
        rw [pathOk_setPrev _ _ _ _ _ hbnx,
            pathOk_setNext _ _ _ _ _ (lastD_not_mem_dropLast l xs
              (by rw [List.nodup_cons]; exact ⟨hlx, (List.nodup_append.mp hnd2).1⟩)),
            pathOk_setNext _ _ _ _ _ (fun hm => he (by
              have h1 : elem ∈ l :: xs := mem_of_mem_dropLast elem (l :: xs) hm
              rcases List.mem_cons.mp h1 with hc | hc
              · simp [hc]
              · simp [List.mem_append, hc])),
            pathOk_setPrev _ _ _ _ _ hex]
        exact hx
      · -- (h2 (lastD l xs)).next = elem
        rw [setPrev_next]
        simp [setNext_self]
      · -- (h2 elem).prev = lastD l xs
        rw [setPrev_ne _ _ _ _ heb, setNext_prev, setNext_prev, setPrev_self]
      · -- (h2 elem).next = b
        rw [setPrev_ne _ _ _ _ heb, setNext_ne _ _ _ _ hepa]
        simp [setNext_self]
      · -- (h2 b).prev = elem
        rw [setPrev_self]
      · -- pathOk of tl is untouched
        rw [pathOk_setPrev _ _ _ _ _ hbtl,
            pathOk_setNext _ _ _ _ _ (by rw [hdltl]; exact hpany),
            pathOk_setNext _ _ _ _ _ (by rw [hdltl]; exact hey),
            pathOk_setPrev _ _ _ _ _
              (fun hm => he (by
                have : elem ∈ ys ++ [l] := by rw [hys]; exact List.mem_cons_of_mem _ hm
                rcases List.mem_append.mp this with hc | hc
                · exact absurd hc hey
                · simp at hc; exact absurd hc hel))]
        exact htl
  · -- frame: nodes outside the ring and elem are untouched
    intro a ha
    have hae : a ≠ elem := fun hm => ha (by simp [hm])
    have hab : a ≠ b := fun hm => ha (List.mem_cons_of_mem _ (hm ▸ hbring))
    have hapa : a ≠ lastD l xs := fun hm => ha (List.mem_cons_of_mem _ (hm ▸ hpamem))
    rw [setPrev_ne _ _ _ _ hab, setNext_ne _ _ _ _ hapa, setNext_ne _ _ _ _ hae,
        setPrev_ne _ _ _ _ hae]

/-! ### Specification of `list_remove`

Removing a member node returns its former successor (the header when the
node was last), reconnects its former neighbours directly, leaves the ring
over the remaining elements well formed, and touches no other node. -/

theorem reps_remove (h : Heap) (l : Nat) (xs ys : List Nat) (elem : Nat)
    (hr : reps h l (xs ++ elem :: ys)) :
    (list_remove h elem).2 = ys.headD l ∧
    reps (list_remove h elem).1 l (xs ++ ys) ∧
    ((list_remove h elem).1 (lastD l xs)).next = ys.headD l ∧
    ((list_remove h elem).1 (ys.headD l)).prev = lastD l xs ∧
    (∀ a, a ∉ l :: (xs ++ elem :: ys) → (list_remove h elem).1 a = h a) := by
  obtain ⟨hnd, hpath⟩ := hr
  have hlring : l ∉ xs ++ elem :: ys := (List.nodup_cons.mp hnd).1
  have hnd2 : (xs ++ elem :: ys).Nodup := (List.nodup_cons.mp hnd).2
  have hlx : l ∉ xs := fun hm => hlring (List.mem_append.mpr (Or.inl hm))
  have hle : l ≠ elem := fun hm => hlring (by simp [hm])
  have hly : l ∉ ys := fun hm => hlring (by simp [List.mem_append, hm])
  have hndx : xs.Nodup := (List.nodup_append.mp hnd2).1
  have hndey : (elem :: ys).Nodup := (List.nodup_append.mp hnd2).2.1
  have hdisj : ∀ a, a ∈ xs → a ∉ elem :: ys := fun a ha hb =>
    (List.nodup_append.mp hnd2).2.2 ha hb
  have hex : elem ∉ xs := fun hm => hdisj elem hm (by simp)
  have hey : elem ∉ ys := (List.nodup_cons.mp hndey).1
  -- destructure ys ++ [l]
  obtain ⟨b, tl, hys⟩ : ∃ b tl, ys ++ [l] = b :: tl := by
    cases ys <;> exact ⟨_, _, rfl⟩
  have hb : ys.headD l = b := by
    have := headD_concat ys l 0
    rw [hys] at this
    simpa using this.symm
  have hbly : b ∈ l :: ys := by
    rw [← hb]; cases ys <;> simp
  have hbring : b ∈ l :: (xs ++ elem :: ys) := by
    rcases List.mem_cons.mp hbly with hc | hc
    · simp [hc]
    · simp [List.mem_append, hc]
  have hbnx : b ∉ xs := by
    rcases List.mem_cons.mp hbly with hc | hc
    · rw [hc]; exact hlx
    · exact fun hm => hdisj b hm (by simp [hc])
  have heb : elem ≠ b := by
    rcases List.mem_cons.mp hbly with hc | hc
    · rw [hc]; exact fun hm => hle hm.symm
    · exact fun hm => hey (hm ▸ hc)
  have hpamem : lastD l xs ∈ l :: xs := lastD_mem l xs
  have hparing : lastD l xs ∈ l :: (xs ++ elem :: ys) := by
    rcases List.mem_cons.mp hpamem with hc | hc
    · simp [hc]
    · simp [List.mem_append, hc]
  have hpae : lastD l xs ≠ elem := by
    rcases List.mem_cons.mp hpamem with hc | hc
    · rw [hc]; exact hle
    · exact fun hm => hex (hm ▸ hc)
  have hpany : lastD l xs ∉ ys := by
    rcases List.mem_cons.mp hpamem with hc | hc
    · rw [hc]; exact hly
    · exact fun hm => hdisj _ hc (by simp [hm])
  -- split the original ring at elem
  rw [List.append_assoc, pathOk_append, List.cons_append] at hpath
  have hx : pathOk h l xs = true := (Bool.and_eq_true _ _ |>.mp hpath).1
  have hrest : pathOk h (lastD l xs) (elem :: (ys ++ [l])) = true :=
    (Bool.and_eq_true _ _ |>.mp hpath).2
  rw [hys] at hrest
  simp only [pathOk, Bool.and_eq_true, decide_eq_true_eq] at hrest
  obtain ⟨⟨hpae2, hepa⟩, hrest2⟩ := hrest
  obtain ⟨⟨heb2, hbe⟩, htl⟩ := hrest2
  -- normalize list_remove
  have hpe_ne : (h elem).prev ≠ elem := by rw [hepa]; exact hpae
  rw [hb, list_remove_fst h elem hpe_ne, list_remove_snd h elem hpe_ne, hepa, heb2]
  have hndtl : (b :: tl).Nodup := by
    rw [← hys, List.nodup_append]
    refine ⟨(List.nodup_cons.mp hndey).2, by simp, ?_⟩
    intro a ha
    simp only [List.mem_singleton]
    rintro rfl
    exact hly ha
  have hbtl : b ∉ tl := (List.nodup_cons.mp hndtl).1
  have hdltl : (b :: tl).dropLast = ys := by rw [← hys, List.dropLast_concat]
  refine ⟨rfl, ⟨?_, ?_⟩, ?_, ?_, ?_⟩
  · -- Nodup of the remaining ring
    have hsub : List.Sublist (l :: (xs ++ ys)) (l :: (xs ++ elem :: ys)) := by
      refine List.Sublist.cons₂ l ?_
      exact List.Sublist.append_left (List.sublist_cons_self elem ys) xs
    exact hsub.nodup hnd
  · -- the remaining ring path
    have hringeq : (xs ++ ys) ++ [l] = xs ++ b :: tl := by
      rw [List.append_assoc, hys]
    rw [hringeq, pathOk_append]
    simp only [pathOk, Bool.and_eq_true, decide_eq_true_eq]
    refine ⟨?_, ⟨?_, ?_⟩, ?_⟩
    · rw [pathOk_setPrev _ _ _ _ _ hbnx,
          pathOk_setNext _ _ _ _ _ (lastD_not_mem_dropLast l xs
            (List.nodup_cons.mpr ⟨hlx, hndx⟩))]
      exact hx
    · rw [setPrev_next]
      simp [setNext_self]
    · rw [setPrev_self]
    · rw [pathOk_setPrev _ _ _ _ _ hbtl,
          pathOk_setNext _ _ _ _ _ (by rw [hdltl]; exact hpany)]
      exact htl
  · rw [setPrev_next]
    simp [setNext_self]
  · rw [setPrev_self]
  · intro a ha
    have hab : a ≠ b := fun hm => ha (hm ▸ hbring)
    have hapa : a ≠ lastD l xs := fun hm => ha (hm ▸ hparing)
    rw [setPrev_ne _ _ _ _ hab, setNext_ne _ _ _ _ hapa]

theorem not_mem_dropLast_of_not_mem (a : Nat) (zs : List Nat) (h : a ∉ zs) :
    a ∉ zs.dropLast :=
  fun hm => h (mem_of_mem_dropLast a zs hm)

/-! ### Specification of `list_splice`

Splicing the non-empty contiguous run `f :: r'` out of the source ring and
in front of the destination split point moves exactly that run, in order,
leaves both rings well formed, and touches no node outside the two rings. -/

theorem reps_splice (h : Heap) (ls ld f : Nat) (as r' bs cs ds : List Nat)
    (hs : reps h ls (as ++ (f :: r') ++ bs)) (hd : reps h ld (cs ++ ds))
    (hdisj : ∀ a, a ∈ ls :: (as ++ (f :: r') ++ bs) → a ∉ ld :: (cs ++ ds)) :
    reps (list_splice h (ds.headD ld) f (bs.headD ls)) ls (as ++ bs) ∧
    reps (list_splice h (ds.headD ld) f (bs.headD ls)) ld (cs ++ (f :: r') ++ ds) ∧
    (∀ a, a ∉ ls :: (as ++ (f :: r') ++ bs) → a ∉ ld :: (cs ++ ds) →
      list_splice h (ds.headD ld) f (bs.headD ls) a = h a) := by
  obtain ⟨hndS, hpathS⟩ := hs
  obtain ⟨hndD, hpathD⟩ := hd
  -- membership injections into the two rings
  have hmemS_as : ∀ x, x ∈ as → x ∈ ls :: (as ++ (f :: r') ++ bs) := fun x hx => by
    simp only [List.mem_cons, List.mem_append] at hx ⊢; tauto
  have hmemS_fr : ∀ x, x ∈ f :: r' → x ∈ ls :: (as ++ (f :: r') ++ bs) := fun x hx => by
    simp only [List.mem_cons, List.mem_append] at hx ⊢; tauto
  have hmemS_bs : ∀ x, x ∈ bs → x ∈ ls :: (as ++ (f :: r') ++ bs) := fun x hx => by
    simp only [List.mem_cons, List.mem_append] at hx ⊢; tauto
  have hmemS_ls : ls ∈ ls :: (as ++ (f :: r') ++ bs) := by simp
  have hmemD_cs : ∀ x, x ∈ cs → x ∈ ld :: (cs ++ ds) := fun x hx => by
    simp only [List.mem_cons, List.mem_append] at hx ⊢; tauto
  have hmemD_ds : ∀ x, x ∈ ds → x ∈ ld :: (cs ++ ds) := fun x hx => by
    simp only [List.mem_cons, List.mem_append] at hx ⊢; tauto
  have hmemD_ld : ld ∈ ld :: (cs ++ ds) := by simp
  have hSD : ∀ x y, x ∈ ls :: (as ++ (f :: r') ++ bs) → y ∈ ld :: (cs ++ ds) → x ≠ y :=
    fun x y hx hy he => hdisj x hx (he ▸ hy)
  -- distinctness inside the source ring
  have hls_es : ls ∉ as ++ (f :: r') ++ bs := (List.nodup_cons.mp hndS).1
  have hnd_es : (as ++ (f :: r') ++ bs).Nodup := (List.nodup_cons.mp hndS).2
  have hnd_asr : (as ++ (f :: r')).Nodup := (List.nodup_append.mp hnd_es).1
  have hnd_bs : bs.Nodup := (List.nodup_append.mp hnd_es).2.1
  have hdisj_asr_bs : ∀ x, x ∈ as ++ (f :: r') → x ∉ bs := fun x hx =>
    (List.nodup_append.mp hnd_es).2.2 hx
  have hnd_as : as.Nodup := (List.nodup_append.mp hnd_asr).1
  have hnd_fr : (f :: r').Nodup := (List.nodup_append.mp hnd_asr).2.1
  have hdisj_as_fr : ∀ x, x ∈ as → x ∉ f :: r' := fun x hx =>
    (List.nodup_append.mp hnd_asr).2.2 hx
  have hls_as : ls ∉ as := fun hm => hls_es (by simp [List.mem_append, hm])
  have hls_fr : ls ∉ f :: r' := fun hm => hls_es (by
    simp only [List.mem_cons, List.mem_append] at hm ⊢; tauto)
  have hls_bs : ls ∉ bs := fun hm => hls_es (by simp [List.mem_append, hm])
  -- distinctness inside the destination ring
  have hld_cd : ld ∉ cs ++ ds := (List.nodup_cons.mp hndD).1
  have hnd_cd : (cs ++ ds).Nodup := (List.nodup_cons.mp hndD).2
  have hnd_cs : cs.Nodup := (List.nodup_append.mp hnd_cd).1
  have hnd_ds : ds.Nodup := (List.nodup_append.mp hnd_cd).2.1
  have hdisj_cs_ds : ∀ x, x ∈ cs → x ∉ ds := fun x hx =>
    (List.nodup_append.mp hnd_cd).2.2 hx
  have hld_cs : ld ∉ cs := fun hm => hld_cd (List.mem_append.mpr (Or.inl hm))
  have hld_ds : ld ∉ ds := fun hm => hld_cd (List.mem_append.mpr (Or.inr hm))
  -- destructure the two closing segments
  obtain ⟨z, zs2, hysS⟩ : ∃ z zs2, bs ++ [ls] = z :: zs2 := by
    cases bs <;> exact ⟨_, _, rfl⟩
  have hbS : bs.headD ls = z := by
    have := headD_concat bs ls 0
    rw [hysS] at this
    simpa using this.symm
  have hz_lsbs : z ∈ ls :: bs := by rw [← hbS]; cases bs <;> simp
  have hzS : z ∈ ls :: (as ++ (f :: r') ++ bs) := by
    rcases List.mem_cons.mp hz_lsbs with hc | hc
    · simp [hc]
    · exact hmemS_bs z hc
  obtain ⟨d, ds2, hysD⟩ : ∃ d ds2, ds ++ [ld] = d :: ds2 := by
    cases ds <;> exact ⟨_, _, rfl⟩
  have hbD : ds.headD ld = d := by
    have := headD_concat ds ld 0
    rw [hysD] at this
    simpa using this.symm
  have hd_ldds : d ∈ ld :: ds := by rw [← hbD]; cases ds <;> simp
  have hdD : d ∈ ld :: (cs ++ ds) := by
    rcases List.mem_cons.mp hd_ldds with hc | hc
    · simp [hc]
    · exact hmemD_ds d hc
  -- key members of the rings
  have hpaS : lastD ls as ∈ ls :: (as ++ (f :: r') ++ bs) := by
    rcases List.mem_cons.mp (lastD_mem ls as) with hc | hc
    · simp [hc]
    · exact hmemS_as _ hc
  have hfS : f ∈ ls :: (as ++ (f :: r') ++ bs) := hmemS_fr f (by simp)
  have httS : lastD f r' ∈ ls :: (as ++ (f :: r') ++ bs) := hmemS_fr _ (lastD_mem f r')
  have hpbD : lastD ld cs ∈ ld :: (cs ++ ds) := by
    rcases List.mem_cons.mp (lastD_mem ld cs) with hc | hc
    · simp [hc]
    · exact hmemD_cs _ hc
  -- pairwise inequalities used below
  have hfz : f ≠ z := by
    rcases List.mem_cons.mp hz_lsbs with hc | hc
    · rw [hc]; intro he; exact hls_es (he ▸ (by simp [List.mem_append] : f ∈ as ++ (f :: r') ++ bs))
    · intro he; exact hdisj_asr_bs f (by simp) (he ▸ hc)
  have hdz : d ≠ z := Ne.symm (hSD z d hzS hdD)
  have hdf : d ≠ f := Ne.symm (hSD f d hfS hdD)
  -- split the source path at the run
  have hSring : (as ++ (f :: r') ++ bs) ++ [ls] = as ++ (f :: (r' ++ (bs ++ [ls]))) := by
    simp [List.append_assoc]
  rw [hSring, pathOk_append] at hpathS
  have hxas : pathOk h ls as = true := (Bool.and_eq_true _ _ |>.mp hpathS).1
  have hrestS : pathOk h (lastD ls as) (f :: (r' ++ (bs ++ [ls]))) = true :=
    (Bool.and_eq_true _ _ |>.mp hpathS).2
  simp only [pathOk, Bool.and_eq_true, decide_eq_true_eq] at hrestS
  obtain ⟨⟨hpaf, hfpa⟩, hrestS⟩ := hrestS
  rw [pathOk_append] at hrestS
  have hr'path : pathOk h f r' = true := (Bool.and_eq_true _ _ |>.mp hrestS).1
  have hrestS2 : pathOk h (lastD f r') (bs ++ [ls]) = true :=
    (Bool.and_eq_true _ _ |>.mp hrestS).2
  rw [hysS] at hrestS2
  simp only [pathOk, Bool.and_eq_true, decide_eq_true_eq] at hrestS2
  obtain ⟨⟨httz, hztt⟩, hzs2⟩ := hrestS2
  -- split the destination path at the insertion point
  have hDring : (cs ++ ds) ++ [ld] = cs ++ (ds ++ [ld]) := List.append_assoc cs ds [ld]
  rw [hDring, hysD, pathOk_append] at hpathD
  have hcs : pathOk h ld cs = true := (Bool.and_eq_true _ _ |>.mp hpathD).1
  have hrestD : pathOk h (lastD ld cs) (d :: ds2) = true :=
    (Bool.and_eq_true _ _ |>.mp hpathD).2
  simp only [pathOk, Bool.and_eq_true, decide_eq_true_eq] at hrestD
  obtain ⟨⟨hpbd, hdpb⟩, hds2⟩ := hrestD
  -- normalize list_splice
  rw [hbS, hbD, list_splice_eq h d f z hfz (by rw [hztt, httz]; exact hdz) hdf,
      hfpa, hztt, httz, hdpb]
  -- the closing segments as subsets
  have hzs2_sub : ∀ x, x ∈ zs2 → x ∈ ls :: bs := fun x hx => by
    have : x ∈ bs ++ [ls] := by rw [hysS]; exact List.mem_cons_of_mem _ hx
    rcases List.mem_append.mp this with hc | hc
    · exact List.mem_cons_of_mem _ hc
    · simp at hc; simp [hc]
  have hzs2S : ∀ x, x ∈ zs2 → x ∈ ls :: (as ++ (f :: r') ++ bs) := fun x hx => by
    rcases List.mem_cons.mp (hzs2_sub x hx) with hc | hc
    · simp [hc]
    · exact hmemS_bs x hc
  have hds2_sub : ∀ x, x ∈ ds2 → x ∈ ld :: ds := fun x hx => by
    have : x ∈ ds ++ [ld] := by rw [hysD]; exact List.mem_cons_of_mem _ hx
    rcases List.mem_append.mp this with hc | hc
    · exact List.mem_cons_of_mem _ hc
    · simp at hc; simp [hc]
  have hds2D : ∀ x, x ∈ ds2 → x ∈ ld :: (cs ++ ds) := fun x hx => by
    rcases List.mem_cons.mp (hds2_sub x hx) with hc | hc
    · simp [hc]
    · exact hmemD_ds x hc
  have hdl_zzs2 : (z :: zs2).dropLast = bs := by rw [← hysS, List.dropLast_concat]
  have hdl_dds2 : (d :: ds2).dropLast = ds := by rw [← hysD, List.dropLast_concat]
  have hnd_zzs2 : (z :: zs2).Nodup := by
    rw [← hysS, List.nodup_append]
    refine ⟨hnd_bs, by simp, ?_⟩
    intro x hx
    simp only [List.mem_singleton]
    rintro rfl
    exact hls_bs hx
  have hnd_dds2 : (d :: ds2).Nodup := by
    rw [← hysD, List.nodup_append]
    refine ⟨hnd_ds, by simp, ?_⟩
    intro x hx
    simp only [List.mem_singleton]
    rintro rfl
    exact hld_ds hx
  -- inequalities needed for the peeling steps
  have hd_as : d ∉ as := fun hm => hSD d d (hmemS_as d hm) hdD rfl
  have hd_cs : d ∉ cs := by
    rcases List.mem_cons.mp hd_ldds with hc | hc
    · rw [hc]; exact hld_cs
    · exact fun hm => hdisj_cs_ds d hm hc
  have hd_r' : d ∉ r' := fun hm => hSD d d (hmemS_fr d (by simp [hm])) hdD rfl
  have hd_zs2 : d ∉ zs2 := fun hm => hSD d d (hzs2S d hm) hdD rfl
  have hd_ds2 : d ∉ ds2 := (List.nodup_cons.mp hnd_dds2).1
  have hpb_S : ∀ x, x ∈ ls :: (as ++ (f :: r') ++ bs) → lastD ld cs ≠ x :=
    fun x hx => Ne.symm (hSD x (lastD ld cs) hx hpbD)
  have htt_lsas : lastD f r' ∉ ls :: as := by
    intro hm
    rcases List.mem_cons.mp hm with hc | hc
    · exact hls_fr (hc ▸ lastD_mem f r')
    · exact hdisj_as_fr _ hc (lastD_mem f r')
  have htt_bs : lastD f r' ∉ bs := fun hm =>
    hdisj_asr_bs _ (by
      have := lastD_mem f r'
      simp only [List.mem_cons, List.mem_append] at this ⊢; tauto) hm
  have htt_ldcs : ∀ x, x ∈ ld :: cs → lastD f r' ≠ x := fun x hx he => by
    rcases List.mem_cons.mp hx with hc | hc
    · exact hSD _ _ httS hmemD_ld (he.trans hc)
    · exact hSD _ _ httS (hmemD_cs x hc) he
  have htt_ds : lastD f r' ∉ ds := fun hm => hSD _ _ httS (hmemD_ds _ hm) rfl
  have hf_as : f ∉ as := fun hm => hdisj_as_fr f hm (by simp)
  have hf_bs : f ∉ bs := fun hm => hdisj_asr_bs f (by simp) hm
  have hf_r' : f ∉ r' := (List.nodup_cons.mp hnd_fr).1
  have hf_cs : f ∉ cs := fun hm => hSD _ _ hfS (hmemD_cs f hm) rfl
  have hf_zs2 : f ∉ zs2 := by
    intro hm
    rcases List.mem_cons.mp (hzs2_sub f hm) with hc | hc
    · exact hls_fr (hc ▸ (by simp : f ∈ f :: r'))
    · exact hf_bs hc
  have hf_ds2 : f ∉ ds2 := fun hm => hSD _ _ hfS (hds2D f hm) rfl
  have hz_as : z ∉ as := by
    rcases List.mem_cons.mp hz_lsbs with hc | hc
    · rw [hc]; exact hls_as
    · exact fun hm => hdisj_asr_bs z (by simp [List.mem_append, hm]) hc
  have hz_r' : z ∉ r' := by
    rcases List.mem_cons.mp hz_lsbs with hc | hc
    · rw [hc]; exact fun hm => hls_fr (by simp [hm])
    · exact fun hm => hdisj_asr_bs z (by simp [List.mem_append, hm]) hc
  have hz_cs : z ∉ cs := fun hm => hSD _ _ hzS (hmemD_cs z hm) rfl
  have hz_zs2 : z ∉ zs2 := (List.nodup_cons.mp hnd_zzs2).1
  have hz_ds2 : z ∉ ds2 := fun hm => hSD _ _ hzS (hds2D z hm) rfl
  have hpa_bs : lastD ls as ∉ bs := by
    rcases List.mem_cons.mp (lastD_mem ls as) with hc | hc
    · rw [hc]; exact hls_bs
    · exact fun hm => hdisj_asr_bs _ (by simp [List.mem_append, hc]) hm
  have hpa_r'f : lastD ls as ∉ f :: r' := by
    rcases List.mem_cons.mp (lastD_mem ls as) with hc | hc
    · rw [hc]; exact hls_fr
    · exact hdisj_as_fr _ hc
  have hpa_tt : lastD ls as ≠ lastD f r' := by
    intro he
    exact hpa_r'f (he ▸ lastD_mem f r')
  have hpa_pb : lastD ls as ≠ lastD ld cs := hSD _ _ hpaS hpbD
  have hpa_cs : lastD ls as ∉ cs := fun hm => hSD _ _ hpaS (hmemD_cs _ hm) rfl
  have hpa_ds : lastD ls as ∉ ds := fun hm => hSD _ _ hpaS (hmemD_ds _ hm) rfl
  have hpb_ds : lastD ld cs ∉ ds := by
    rcases List.mem_cons.mp (lastD_mem ld cs) with hc | hc
    · rw [hc]; exact hld_ds
    · exact hdisj_cs_ds _ hc
  refine ⟨⟨?_, ?_⟩, ⟨?_, ?_⟩, ?_⟩
  · -- Nodup of the remaining source ring
    have hsub : List.Sublist (ls :: (as ++ bs)) (ls :: (as ++ (f :: r') ++ bs)) := by
      refine List.Sublist.cons₂ ls ?_
      rw [List.append_assoc]
      exact List.Sublist.append_left (List.sublist_append_right (f :: r') bs) as
    exact hsub.nodup hndS
  · -- path of the remaining source ring
    have hS2 : (as ++ bs) ++ [ls] = as ++ (z :: zs2) := by
      rw [List.append_assoc, hysS]
    rw [hS2, pathOk_append]
    simp only [pathOk, Bool.and_eq_true, decide_eq_true_eq]
    refine ⟨?_, ⟨?_, ?_⟩, ?_⟩
    · rw [pathOk_setPrev _ _ _ _ _ hd_as,
          pathOk_setNext _ _ _ _ _ (not_mem_dropLast_of_not_mem _ _ (by
            intro hm
            rcases List.mem_cons.mp hm with hc | hc
            · exact hpb_S ls hmemS_ls hc
            · exact hpb_S _ (hmemS_as _ hc) rfl)),
          pathOk_setNext _ _ _ _ _ (not_mem_dropLast_of_not_mem _ _ htt_lsas),
          pathOk_setPrev _ _ _ _ _ hf_as,
          pathOk_setPrev _ _ _ _ _ hz_as,
          pathOk_setNext _ _ _ _ _ (lastD_not_mem_dropLast ls as
            (List.nodup_cons.mpr ⟨hls_as, hnd_as⟩))]
      exact hxas
    · rw [setPrev_next, setNext_ne _ _ _ _ hpa_pb, setNext_ne _ _ _ _ hpa_tt,
          setPrev_next, setPrev_next]
      simp [setNext_self]
    · rw [setPrev_ne _ _ _ _ (Ne.symm hdz), setNext_prev, setNext_prev,
          setPrev_ne _ _ _ _ (Ne.symm hfz)]
      simp [setPrev_self]
    · rw [pathOk_setPrev _ _ _ _ _ hd_zs2,
          pathOk_setNext _ _ _ _ _ (by
            rw [hdl_zzs2]
            intro hm
            exact hpb_S _ (hmemS_bs _ hm) rfl),
          pathOk_setNext _ _ _ _ _ (by rw [hdl_zzs2]; exact htt_bs),
          pathOk_setPrev _ _ _ _ _ hf_zs2,
          pathOk_setPrev _ _ _ _ _ hz_zs2,
          pathOk_setNext _ _ _ _ _ (by rw [hdl_zzs2]; exact hpa_bs)]
      exact hzs2
  · -- Nodup of the new destination ring
    have hperm : (ld :: (cs ++ (f :: r') ++ ds)).Perm ((f :: r') ++ (ld :: (cs ++ ds))) := by
      rw [List.perm_iff_count]
      intro c
      simp [List.count_cons, List.count_append]
      omega
    refine hperm.nodup_iff.mpr (List.nodup_append.mpr ⟨hnd_fr, hndD, ?_⟩)
    intro x hx
    intro hm
    exact hdisj x (hmemS_fr x hx) hm
  · -- path of the new destination ring
    have hD2 : (cs ++ (f :: r') ++ ds) ++ [ld] = cs ++ (f :: (r' ++ (d :: ds2))) := by
      rw [← hysD]
      simp [List.append_assoc]
    rw [hD2, pathOk_append]
    simp only [pathOk, Bool.and_eq_true, decide_eq_true_eq]
    refine ⟨?_, ⟨?_, ?_⟩, ?_⟩
    · rw [pathOk_setPrev _ _ _ _ _ hd_cs,
          pathOk_setNext _ _ _ _ _ (lastD_not_mem_dropLast ld cs
            (List.nodup_cons.mpr ⟨hld_cs, hnd_cs⟩)),
          pathOk_setNext _ _ _ _ _ (not_mem_dropLast_of_not_mem _ _ (fun hm =>
            htt_ldcs _ hm rfl)),
          pathOk_setPrev _ _ _ _ _ hf_cs,
          pathOk_setPrev _ _ _ _ _ hz_cs,
          pathOk_setNext _ _ _ _ _ (not_mem_dropLast_of_not_mem _ _ (by
            intro hm
            rcases List.mem_cons.mp hm with hc | hc
            · exact hSD _ _ hpaS hmemD_ld hc
            · exact hpa_cs hc))]
      exact hcs
    · rw [setPrev_next]
      simp [setNext_self]
    · rw [setPrev_ne _ _ _ _ (Ne.symm hdf), setNext_prev, setNext_prev]
      simp [setPrev_self]
    · rw [pathOk_append]
      simp only [pathOk, Bool.and_eq_true, decide_eq_true_eq]
      refine ⟨?_, ⟨?_, ?_⟩, ?_⟩
      · rw [pathOk_setPrev _ _ _ _ _ hd_r',
            pathOk_setNext _ _ _ _ _ (not_mem_dropLast_of_not_mem _ _ (fun hm =>
              hpb_S _ (hmemS_fr _ hm) rfl)),
            pathOk_setNext _ _ _ _ _ (lastD_not_mem_dropLast f r' hnd_fr),
            pathOk_setPrev _ _ _ _ _ hf_r',
            pathOk_setPrev _ _ _ _ _ hz_r',
            pathOk_setNext _ _ _ _ _ (not_mem_dropLast_of_not_mem _ _ hpa_r'f)]
        exact hr'path
      · rw [setPrev_next, setNext_ne _ _ _ _ (htt_ldcs _ (lastD_mem ld cs))]
        simp [setNext_self]
      · simp [setPrev_self]
      · rw [pathOk_setPrev _ _ _ _ _ hd_ds2,
            pathOk_setNext _ _ _ _ _ (by rw [hdl_dds2]; exact hpb_ds),
            pathOk_setNext _ _ _ _ _ (by rw [hdl_dds2]; exact htt_ds),
            pathOk_setPrev _ _ _ _ _ hf_ds2,
            pathOk_setPrev _ _ _ _ _ hz_ds2,
            pathOk_setNext _ _ _ _ _ (by rw [hdl_dds2]; exact hpa_ds)]
        exact hds2
  · -- frame: nodes outside both rings are untouched
    intro a haS haD
    have had : a ≠ d := fun hm => haD (hm ▸ hdD)
    have hapb : a ≠ lastD ld cs := fun hm => haD (hm ▸ hpbD)
    have hatt : a ≠ lastD f r' := fun hm => haS (hm ▸ httS)
    have haf : a ≠ f := fun hm => haS (hm ▸ hfS)
    have haz : a ≠ z := fun hm => haS (hm ▸ hzS)
    have hapa : a ≠ lastD ls as := fun hm => haS (hm ▸ hpaS)
    rw [setPrev_ne _ _ _ _ had, setNext_ne _ _ _ _ hapb, setNext_ne _ _ _ _ hatt,
        setPrev_ne _ _ _ _ haf, setPrev_ne _ _ _ _ haz, setNext_ne _ _ _ _ hapa]

/-! ### Specification of `list_replace`

`list_replace(element, position)` makes the fresh node `element` take the
ring position of `position`; the replaced node's own link pair is left
untouched, still aiming at its former neighbours. -/

theorem reps_replace (h : Heap) (l : Nat) (xs ys : List Nat) (position element : Nat)
    (hr : reps h l (xs ++ position :: ys)) (he : element ∉ l :: (xs ++ position :: ys)) :
    reps (list_replace h element position) l (xs ++ element :: ys) ∧
    position ∉ l :: (xs ++ element :: ys) ∧
    list_replace h element position position = h position ∧
    (h position).next = ys.headD l ∧ (h position).prev = lastD l xs ∧
    (∀ a, a ∉ element :: l :: (xs ++ position :: ys) →
      list_replace h element position a = h a) := by
  obtain ⟨hnd, hpath⟩ := hr
  have hlring : l ∉ xs ++ position :: ys := (List.nodup_cons.mp hnd).1
  have hnd2 : (xs ++ position :: ys).Nodup := (List.nodup_cons.mp hnd).2
  have hlx : l ∉ xs := fun hm => hlring (List.mem_append.mpr (Or.inl hm))
  have hlp : l ≠ position := fun hm => hlring (by simp [hm])
  have hly : l ∉ ys := fun hm => hlring (by simp [List.mem_append, hm])
  have hndx : xs.Nodup := (List.nodup_append.mp hnd2).1
  have hndpy : (position :: ys).Nodup := (List.nodup_append.mp hnd2).2.1
  have hdisj : ∀ a, a ∈ xs → a ∉ position :: ys := fun a ha hb =>
    (List.nodup_append.mp hnd2).2.2 ha hb
  have hpx : position ∉ xs := fun hm => hdisj position hm (by simp)
  have hpy : position ∉ ys := (List.nodup_cons.mp hndpy).1
  have hex : element ∉ xs := fun hm => he (by simp [List.mem_append, hm])
  have hey : element ∉ ys := fun hm => he (by simp [List.mem_append, hm])
  have hel : element ≠ l := fun hm => he (by simp [hm])
  have hep : element ≠ position := fun hm => he (by simp [List.mem_append, hm])
  obtain ⟨b, tl, hys⟩ : ∃ b tl, ys ++ [l] = b :: tl := by
    cases ys <;> exact ⟨_, _, rfl⟩
  have hb : ys.headD l = b := by
    have := headD_concat ys l 0
    rw [hys] at this
    simpa using this.symm
  have hbly : b ∈ l :: ys := by rw [← hb]; cases ys <;> simp
  have hbring : b ∈ l :: (xs ++ position :: ys) := by
    rcases List.mem_cons.mp hbly with hc | hc
    · simp [hc]
    · simp [List.mem_append, hc]
  have hbnx : b ∉ xs := by
    rcases List.mem_cons.mp hbly with hc | hc
    · rw [hc]; exact hlx
    · exact fun hm => hdisj b hm (by simp [hc])
  have hbp : b ≠ position := by
    rcases List.mem_cons.mp hbly with hc | hc
    · rw [hc]; exact hlp
    · exact fun hm => hpy (hm ▸ hc)
  have heb : element ≠ b := fun hm => he (hm ▸ hbring)
  have hpamem : lastD l xs ∈ l :: xs := lastD_mem l xs
  have hparing : lastD l xs ∈ l :: (xs ++ position :: ys) := by
    rcases List.mem_cons.mp hpamem with hc | hc
    · simp [hc]
    · simp [List.mem_append, hc]
  have hpap : lastD l xs ≠ position := by
    rcases List.mem_cons.mp hpamem with hc | hc
    · rw [hc]; exact hlp
    · exact fun hm => hpx (hm ▸ hc)
  have hepa : element ≠ lastD l xs := fun hm => he (hm ▸ hparing)
  have hpany : lastD l xs ∉ ys := by
    rcases List.mem_cons.mp hpamem with hc | hc
    · rw [hc]; exact hly
    · exact fun hm => hdisj _ hc (by simp [hm])
  -- split the original ring at position
  rw [List.append_assoc, pathOk_append, List.cons_append] at hpath
  have hx : pathOk h l xs = true := (Bool.and_eq_true _ _ |>.mp hpath).1
  have hrest : pathOk h (lastD l xs) (position :: (ys ++ [l])) = true :=
    (Bool.and_eq_true _ _ |>.mp hpath).2
  rw [hys] at hrest
  simp only [pathOk, Bool.and_eq_true, decide_eq_true_eq] at hrest
  obtain ⟨⟨hpapos, hpospa⟩, hrest2⟩ := hrest
  obtain ⟨⟨hposb, hbpos⟩, htl⟩ := hrest2
  have hndtl : (b :: tl).Nodup := by
    rw [← hys, List.nodup_append]
    refine ⟨(List.nodup_cons.mp hndpy).2, by simp, ?_⟩
    intro a ha
    simp only [List.mem_singleton]
    rintro rfl
    exact hly ha
  have hbtl : b ∉ tl := (List.nodup_cons.mp hndtl).1
  have hdltl : (b :: tl).dropLast = ys := by rw [← hys, List.dropLast_concat]
  -- normalize list_replace
  have hpn_ne : (h position).next ≠ position := by rw [hposb]; exact hbp
  rw [hb, list_replace_eq h element position hpn_ne, hposb, hpospa]
  refine ⟨⟨?_, ?_⟩, ?_, ?_, rfl, rfl, ?_⟩
  · -- Nodup of the new ring
    have hsub : List.Sublist (l :: (xs ++ ys)) (l :: (xs ++ position :: ys)) := by
      refine List.Sublist.cons₂ l ?_
      exact List.Sublist.append_left (List.sublist_cons_self position ys) xs
    have hnd3 : (l :: (xs ++ ys)).Nodup := hsub.nodup hnd
    have hperm : (l :: (xs ++ element :: ys)).Perm (element :: l :: (xs ++ ys)) := by
      rw [List.perm_iff_count]
      intro c
      simp [List.count_cons, List.count_append]
      omega
    refine hperm.nodup_iff.mpr (List.nodup_cons.mpr ⟨?_, hnd3⟩)
    intro hm
    rcases List.mem_cons.mp hm with hc | hc
    · exact hel hc
    · rcases List.mem_append.mp hc with hc2 | hc2
      · exact hex hc2
      · exact hey hc2
  · -- path of the new ring
    have hringeq : (xs ++ element :: ys) ++ [l] = xs ++ element :: b :: tl := by
      rw [List.append_assoc, List.cons_append, hys]
    rw [hringeq, pathOk_append]
    simp only [pathOk, Bool.and_eq_true, decide_eq_true_eq]
    refine ⟨?_, ⟨?_, ?_⟩, ⟨?_, ?_⟩, ?_⟩
    · rw [pathOk_setNext _ _ _ _ _ (lastD_not_mem_dropLast l xs
            (List.nodup_cons.mpr ⟨hlx, hndx⟩)),
          pathOk_setPrev _ _ _ _ _ hex,
          pathOk_setPrev _ _ _ _ _ hbnx,
          pathOk_setNext _ _ _ _ _ (not_mem_dropLast_of_not_mem _ _ (by
            intro hm
            rcases List.mem_cons.mp hm with hc | hc
            · exact hel hc
            · exact hex hc))]
      exact hx
    · simp [setNext_self]
    · rw [setNext_prev, setPrev_self]
    · rw [setNext_ne _ _ _ _ hepa, setPrev_next, setPrev_next]
      simp [setNext_self]
    · rw [setNext_prev, setPrev_ne _ _ _ _ (Ne.symm heb), setPrev_self]
    · rw [pathOk_setNext _ _ _ _ _ (by rw [hdltl]; exact hpany),
          pathOk_setPrev _ _ _ _ _ (fun hm => he (by
            have : element ∈ ys ++ [l] := by rw [hys]; exact List.mem_cons_of_mem _ hm
            rcases List.mem_append.mp this with hc | hc
            · exact absurd hc hey
            · simp at hc; exact absurd hc hel)),
          pathOk_setPrev _ _ _ _ _ hbtl,
          pathOk_setNext _ _ _ _ _ (by rw [hdltl]; exact hey)]
      exact htl
  · -- position is no longer on the ring
    intro hm
    rcases List.mem_cons.mp hm with hc | hc
    · exact hlp hc.symm
    · rcases List.mem_append.mp hc with hc2 | hc2
      · exact hpx hc2
      · rcases List.mem_cons.mp hc2 with hc3 | hc3
        · exact hep hc3.symm
        · exact hpy hc3
  · -- the replaced node itself is untouched
    rw [setNext_ne _ _ _ _ (Ne.symm hpap), setPrev_ne _ _ _ _ (Ne.symm hep),
        setPrev_ne _ _ _ _ (Ne.symm hbp), setNext_ne _ _ _ _ (Ne.symm hep)]
  · -- frame
    intro a ha
    have hae : a ≠ element := fun hm => ha (by simp [hm])
    have hab : a ≠ b := fun hm => ha (List.mem_cons_of_mem _ (hm ▸ hbring))
    have hapa : a ≠ lastD l xs := fun hm => ha (List.mem_cons_of_mem _ (hm ▸ hparing))
    rw [setNext_ne _ _ _ _ hapa, setPrev_ne _ _ _ _ hae, setPrev_ne _ _ _ _ hab,
        setNext_ne _ _ _ _ hae]

/-! ### Specification of `list_move`

`list_move(dst, src)` rebuilds at header `dst` the list that `src` headed:
the neighbours of the old header are relinked to `dst`, and an empty source
yields `dst` initialized as an empty list. -/

theorem reps_move (h : Heap) (dst src : Nat) (xs : List Nat)
    (hr : reps h src xs) (hdx : dst ∉ xs) :
    reps (list_move h dst src) dst xs := by
  cases xs with
  | nil =>
    have hre := hr.2
    simp only [List.nil_append, pathOk, Bool.and_eq_true, decide_eq_true_eq] at hre
    have hempty : list_is_empty h src = true := by
      simp [list_is_empty, hre.1.1]
    rw [list_move, if_neg (by simp [hempty])]
    constructor
    · simp
    · simp [pathOk, list_init]
  | cons x xs' =>
    have hnd := hr.1
    have hndx : (x :: xs').Nodup := (List.nodup_cons.mp hnd).2
    have hsrcx : src ∉ x :: xs' := (List.nodup_cons.mp hnd).1
    have hre := hr.2
    simp only [List.cons_append, List.append_eq, pathOk, Bool.and_eq_true,
      decide_eq_true_eq] at hre
    obtain ⟨⟨hsx, hxs⟩, hrest⟩ := hre
    have hxsrc : x ≠ src := fun hm => hsrcx (by simp [hm])
    have hdstx : dst ≠ x := fun hm => hdx (by simp [hm])
    have hnonempty : ¬ list_is_empty h src = true := by
      simp [list_is_empty, hsx, hxsrc]
    rw [list_move, if_pos hnonempty]
    have htlast : (h src).prev = lastD x xs' := by
      have := (pathOk_close_iff h src (x :: xs')).mp hr.2
      exact this.2.2
    have htmem : lastD x xs' ∈ x :: xs' := lastD_mem x xs'
    have hdt : dst ≠ lastD x xs' := fun hm => hdx (hm ▸ htmem)
    have hmoved_ne : ((fun b => if b = dst then h src else h b) dst).next ≠ dst := by
      simp [hsx]
      exact fun hm => hdstx hm.symm
    rw [list_moved_eq _ dst hmoved_ne]
    have hnexteq : (if dst = dst then h src else h dst).next = x := by
      simp [hsx]
    have hpreveq : (if dst = dst then h src else h dst).prev = lastD x xs' := by
      simp [htlast]
    rw [hnexteq, hpreveq]
    constructor
    · exact List.nodup_cons.mpr ⟨hdx, hndx⟩
    · simp only [List.cons_append, List.append_eq, pathOk, Bool.and_eq_true,
        decide_eq_true_eq]
      refine ⟨⟨?_, ?_⟩, ?_⟩
      · rw [setNext_ne _ _ _ _ hdt, setPrev_ne _ _ _ _ hdstx]
        simp [hsx]
      · rw [setNext_prev]
        simp [setPrev_self]
      · rw [pathOk_append]
        simp only [pathOk, Bool.and_eq_true, decide_eq_true_eq, and_true]
        refine ⟨?_, ?_, ?_⟩
        · rw [pathOk_setNext _ _ _ _ _ (lastD_not_mem_dropLast x xs' hndx),
              pathOk_setPrev _ _ _ _ _ (List.nodup_cons.mp hndx).1,
              pathOk_update _ _ _ _ _ hdx]
          rw [pathOk_append] at hrest
          exact (Bool.and_eq_true _ _ |>.mp hrest).1
        · simp [setNext_self]
        · rw [setNext_prev, setPrev_ne _ _ _ _ hdstx]
          simp [htlast]

/-! ### Concrete heaps used by the witnesses -/

/-- Concrete heap holding the ring `0 → 1 → 2 → 0`; all other nodes are
self-referencing sentinels. -/
def demoHeap : Heap := fun a =>
  if a = 0 then ⟨2, 1⟩ else if a = 1 then ⟨0, 2⟩ else if a = 2 then ⟨1, 0⟩ else ⟨a, a⟩

/-- Concrete heap holding two disjoint rings `0 → 1 → 2 → 0` and `10 → 11 → 10`. -/
def demoHeap2 : Heap := fun a =>
  if a = 0 then ⟨2, 1⟩ else if a = 1 then ⟨0, 2⟩ else if a = 2 then ⟨1, 0⟩
  else if a = 10 then ⟨11, 11⟩ else if a = 11 then ⟨10, 10⟩ else ⟨a, a⟩

/-! ### The claims -/

/-- C2: for every node that is a member of a well-formed circular list,
`list_remove(node)` returns the node's successor before the call, and
afterwards the list is a valid circular list over the previous elements
minus the node, with the former predecessor and successor linked directly
to each other. -/
theorem C2_remove_spec (h : Heap) (l : Nat) (xs ys : List Nat) (elem : Nat)
    (hr : reps h l (xs ++ elem :: ys)) :
    (h elem).next = ys.headD l ∧
    (list_remove h elem).2 = ys.headD l ∧
    reps (list_remove h elem).1 l (xs ++ ys) ∧
    ((list_remove h elem).1 (lastD l xs)).next = ys.headD l ∧
    ((list_remove h elem).1 (ys.headD l)).prev = lastD l xs := by
  have hrm := reps_remove h l xs ys elem hr
  have hrot := reps_rot h l elem xs ys hr
  have hnext := (reps_next_head _ _ _ hrot).1
  have hhd : (ys ++ l :: xs).headD elem = ys.headD l := by cases ys <;> simp
  rw [hhd] at hnext
  exact ⟨hnext, hrm.1, hrm.2.1, hrm.2.2.1, hrm.2.2.2.1⟩

/-- C2 witness: removing node 2 from the ring `0 → 1 → 2 → 0` returns the
header 0. -/
theorem C2_remove_spec_witness :
    reps demoHeap 0 ([1] ++ 2 :: []) ∧ (list_remove demoHeap 2).2 = 0 :=
  ⟨by decide, by simpa using (C2_remove_spec demoHeap 0 [1] [] 2 (by decide)).2.1⟩

/-- C3: `list_splice(before, first, last)` with `[first, last)` a non-empty
contiguous run of the source list moves exactly that run, in order, just
before `before` in the destination list, leaving both rings valid; an empty
range (`first == last`) changes nothing. -/
theorem C3_splice_spec (h : Heap) (ls ld f : Nat) (as r' bs cs ds : List Nat)
    (hs : reps h ls (as ++ (f :: r') ++ bs)) (hd : reps h ld (cs ++ ds))
    (hdisj : ∀ a, a ∈ ls :: (as ++ (f :: r') ++ bs) → a ∉ ld :: (cs ++ ds)) :
    reps (list_splice h (ds.headD ld) f (bs.headD ls)) ls (as ++ bs) ∧
    reps (list_splice h (ds.headD ld) f (bs.headD ls)) ld (cs ++ (f :: r') ++ ds) ∧
    (∀ (h2 : Heap) (before q : Nat), list_splice h2 before q q = h2) := by
  have := reps_splice h ls ld f as r' bs cs ds hs hd hdisj
  exact ⟨this.1, this.2.1, fun h2 before q => by simp [list_splice]⟩

/-- C3 witness: splicing the run `[1]` out of `0 → 1 → 2 → 0` and in front
of node 11 of the ring `10 → 11 → 10`. -/
theorem C3_splice_spec_witness :
    (reps demoHeap2 0 ([] ++ (1 :: []) ++ [2]) ∧ reps demoHeap2 10 ([] ++ [11]) ∧
     (∀ a, a ∈ 0 :: ([] ++ (1 :: []) ++ [2]) → a ∉ 10 :: ([] ++ [11]))) ∧
    reps (list_splice demoHeap2 ([11].headD 10) 1 ([2].headD 0)) 0 ([] ++ [2]) :=
  ⟨⟨by decide, by decide, by decide⟩,
   (C3_splice_spec demoHeap2 0 10 1 [] [] [2] [] [11]
     (by decide) (by decide) (by decide)).1⟩

/-- C4: a freshly initialized node is a solitary self-referencing sentinel;
a node on well-formed rings belongs to exactly one ring (two rings sharing
a node have the same members); and after `list_remove` the neighbours are
relinked, the removed node is off the ring, and no node of the ring still
references it. -/
theorem C4_membership_and_remove (h : Heap) (l : Nat) (xs ys : List Nat) (elem : Nat)
    (hr : reps h l (xs ++ elem :: ys)) :
    (∀ (h0 : Heap) (n : Nat), reps (list_init h0 n) n [] ∧
       ((list_init h0 n) n).next = n ∧ ((list_init h0 n) n).prev = n) ∧
    (∀ (h1 : Heap) (l1 l2 : Nat) (zs1 zs2 : List Nat) (a : Nat),
       reps h1 l1 zs1 → reps h1 l2 zs2 → a ∈ l1 :: zs1 → a ∈ l2 :: zs2 →
       ∀ b, (b ∈ l1 :: zs1 ↔ b ∈ l2 :: zs2)) ∧
    reps (list_remove h elem).1 l (xs ++ ys) ∧
    elem ∉ l :: (xs ++ ys) ∧
    (∀ a, a ∈ l :: (xs ++ ys) →
       ((list_remove h elem).1 a).next ≠ elem ∧ ((list_remove h elem).1 a).prev ≠ elem) := by
  have hrm := reps_remove h l xs ys elem hr
  have hnd := hr.1
  have helem_ring : elem ∉ l :: (xs ++ ys) := by
    intro hm
    have hl : l ∉ xs ++ elem :: ys := (List.nodup_cons.mp hnd).1
    have hnd2 : (xs ++ elem :: ys).Nodup := (List.nodup_cons.mp hnd).2
    rcases List.mem_cons.mp hm with hc | hc
    · exact hl (by simp [List.mem_append, hc.symm])
    · rcases List.mem_append.mp hc with hc2 | hc2
      · exact (List.nodup_append.mp hnd2).2.2 hc2 (by simp)
      · exact (List.nodup_cons.mp (List.nodup_append.mp hnd2).2.1).1 hc2
  refine ⟨?_, ?_, hrm.2.1, helem_ring, ?_⟩
  · intro h0 n
    refine ⟨⟨by simp, ?_⟩, by simp [list_init], by simp [list_init]⟩
    simp [pathOk, list_init]
  · intro h1 l1 l2 zs1 zs2 a hr1 hr2 ha1 ha2 b
    obtain ⟨ws1, hw1, hp1, _⟩ := reps_rot_of_mem h1 l1 zs1 a hr1 ha1
    obtain ⟨ws2, hw2, hp2, _⟩ := reps_rot_of_mem h1 l2 zs2 a hr2 ha2
    have heq : ws1 = ws2 := reps_unique h1 a ws1 ws2 hw1 hw2
    constructor
    · intro hb
      exact hp2.mem_iff.mp (heq ▸ hp1.mem_iff.mpr hb)
    · intro hb
      exact hp1.mem_iff.mp (heq ▸ hp2.mem_iff.mpr hb)
  · intro a ha
    have hcl := reps_closed (list_remove h elem).1 l (xs ++ ys) a hrm.2.1 ha
    exact ⟨fun he => helem_ring (he ▸ hcl.1), fun he => helem_ring (he ▸ hcl.2)⟩

/-- C4 witness: removing node 1 from the ring `0 → 1 → 2 → 0`: the remaining
ring is `0 → 2 → 0` and node 1 is unreferenced from it. -/
theorem C4_membership_and_remove_witness :
    reps demoHeap 0 ([] ++ 1 :: [2]) ∧ reps (list_remove demoHeap 1).1 0 ([] ++ [2]) :=
  ⟨by decide, (C4_membership_and_remove demoHeap 0 [] [2] 1 (by decide)).2.2.1⟩

/-- C6: `list_front` and `list_back` hit the failed assertion (modelled as
`none`) exactly on the empty list; on a non-empty well-formed list the
assertion passes and they return the first element (the sentinel's `next`)
and the last element (the sentinel's `prev`). -/
theorem C6_front_back (h : Heap) (l : Nat) (xs : List Nat) (hr : reps h l xs) :
    (list_front h l = none ↔ xs = []) ∧ (list_back h l = none ↔ xs = []) ∧
    (xs ≠ [] → list_front h l = some (xs.headD l) ∧ list_back h l = some (lastD l xs)) := by
  have hnext := (reps_next_head h l xs hr).1
  have hprev := (reps_prev_last h l xs hr).1
  cases xs with
  | nil =>
    have hempty : list_is_empty h l = true := by simp [list_is_empty, hnext]
    simp [list_front, list_back, hempty]
  | cons x xs' =>
    have hlnx : l ∉ x :: xs' := (List.nodup_cons.mp hr.1).1
    have hxl : x ≠ l := fun he => hlnx (by simp [he])
    have hempty : list_is_empty h l = false := by
      simp [list_is_empty, hnext, hxl]
    simp [list_front, list_back, hempty, hnext, hprev]

/-- C6 witness: on the ring `0 → 1 → 2 → 0`, front is 1 and back is 2; on
the empty sentinel 7, both accessors fail. -/
theorem C6_front_back_witness :
    reps demoHeap 0 [1, 2] ∧
    (list_front demoHeap 0 = some 1 ∧ list_back demoHeap 0 = some 2) ∧
    reps demoHeap 7 [] ∧ list_front demoHeap 7 = none :=
  ⟨by decide,
   by simpa using (C6_front_back demoHeap 0 [1, 2] (by decide)).2.2 (by decide),
   by decide,
   by simpa using (C6_front_back demoHeap 7 [] (by decide)).1.mpr rfl⟩

/-- C7: on a well-formed circular list, `list_is_empty` holds iff
`list_size` is 0, `list_is_singleton` holds iff it is 1, and
`list_is_short` holds iff it is at most 1. -/
theorem C7_size_predicates (h : Heap) (l : Nat) (xs : List Nat) (fuel : Nat)
    (hr : reps h l xs) (hf : xs.length ≤ fuel) :
    (list_is_empty h l = true ↔ list_size h l fuel = 0) ∧
    (list_is_singleton h l = true ↔ list_size h l fuel = 1) ∧
    (list_is_short h l = true ↔ list_size h l fuel ≤ 1) := by
  have hsize := reps_size h l xs fuel hr hf
  have hnext := (reps_next_head h l xs hr).1
  have hprev := (reps_prev_last h l xs hr).1
  rw [hsize]
  cases xs with
  | nil =>
    simp [list_is_empty, list_is_singleton, list_is_short, hnext, hprev, lastD]
  | cons x xs' =>
    have hlnx : l ∉ x :: xs' := (List.nodup_cons.mp hr.1).1
    have hxl : x ≠ l := fun he => hlnx (by simp [he])
    cases xs' with
    | nil =>
      simp [list_is_empty, list_is_singleton, list_is_short, hnext, hprev, lastD, hxl]
    | cons y rest =>
      have hnd2 : (x :: y :: rest).Nodup := (List.nodup_cons.mp hr.1).2
      have hxnyr : x ∉ y :: rest := (List.nodup_cons.mp hnd2).1
      have hxne : x ≠ lastD y rest := fun he => hxnyr (he ▸ lastD_mem y rest)
      have hprev2 : (h l).prev = lastD y rest := by simpa [lastD] using hprev
      simp [list_is_empty, list_is_singleton, list_is_short, hnext, hprev2, hxl, hxne]

/-- C7 witness: the ring `0 → 1 → 2 → 0` has size 2 and none of the three
predicates hold. -/
theorem C7_size_predicates_witness :
    (reps demoHeap 0 [1, 2] ∧ [1, 2].length ≤ 2) ∧
    (list_is_empty demoHeap 0 = true ↔ list_size demoHeap 0 2 = 0) :=
  ⟨⟨by decide, by decide⟩,
   (C7_size_predicates demoHeap 0 [1, 2] 2 (by decide) (by decide)).1⟩

/-- C8: after `list_move(dst, src)` the header `dst` heads a valid circular
list over exactly the elements `src` headed, in order; when `src` is empty,
`dst` is initialized as an empty self-referencing list. -/
theorem C8_move (h : Heap) (dst src : Nat) (xs : List Nat)
    (hr : reps h src xs) (hdx : dst ∉ xs) :
    reps (list_move h dst src) dst xs ∧
    (xs = [] → ((list_move h dst src) dst).next = dst ∧
      ((list_move h dst src) dst).prev = dst) := by
  have hm := reps_move h dst src xs hr hdx
  refine ⟨hm, ?_⟩
  rintro rfl
  have h1 := (reps_next_head _ _ _ hm).1
  have h2 := (reps_prev_last _ _ _ hm).1
  simpa [lastD] using ⟨h1, h2⟩

/-- C8 witness: moving the ring `0 → 1 → 2 → 0` to the fresh header 5. -/
theorem C8_move_witness :
    (reps demoHeap 0 [1, 2] ∧ 5 ∉ [1, 2]) ∧ reps (list_move demoHeap 5 0) 5 [1, 2] :=
  ⟨⟨by decide, by decide⟩, (C8_move demoHeap 5 0 [1, 2] (by decide) (by decide)).1⟩

/-- C9: removing a node from list A and re-inserting it into a disjoint
list B leaves A a valid circular list over its remaining elements in their
original order (and B gains the node at the insertion point). -/
theorem C9_remove_reinsert (h : Heap) (la lb elem : Nat) (as bs cs ds : List Nat)
    (hA : reps h la (as ++ elem :: bs)) (hB : reps h lb (cs ++ ds))
    (hdisj : ∀ a, a ∈ la :: (as ++ elem :: bs) → a ∉ lb :: (cs ++ ds)) :
    reps (list_insert (list_remove h elem).1 (ds.headD lb) elem) la (as ++ bs) ∧
    reps (list_insert (list_remove h elem).1 (ds.headD lb) elem) lb (cs ++ elem :: ds) := by
  have hrm := reps_remove h la as bs elem hA
  have hA1 : reps (list_remove h elem).1 la (as ++ bs) := hrm.2.1
  have huntouched := hrm.2.2.2.2
  have hB1 : reps (list_remove h elem).1 lb (cs ++ ds) :=
    (reps_congr h (list_remove h elem).1 lb (cs ++ ds) (fun a ha =>
      huntouched a (fun hm => hdisj a hm ha))).mpr hB
  have helemB : elem ∉ lb :: (cs ++ ds) :=
    hdisj elem (by simp [List.mem_append])
  have hins := reps_insert (list_remove h elem).1 lb cs ds elem hB1 helemB
  refine ⟨?_, hins.1⟩
  refine (reps_congr (list_remove h elem).1
    (list_insert (list_remove h elem).1 (ds.headD lb) elem) la (as ++ bs) ?_).mpr hA1
  intro a ha
  · apply hins.2
    intro hm
    rcases List.mem_cons.mp hm with hc | hc
    · -- a = elem is impossible: elem is not on A's remaining ring
      have helemA : elem ∉ la :: (as ++ bs) := by
        have hndA := hA.1
        intro hmm
        have hl : la ∉ as ++ elem :: bs := (List.nodup_cons.mp hndA).1
        have hnd2 : (as ++ elem :: bs).Nodup := (List.nodup_cons.mp hndA).2
        rcases List.mem_cons.mp hmm with hc2 | hc2
        · exact hl (by simp [List.mem_append, hc2.symm])
        · rcases List.mem_append.mp hc2 with hc3 | hc3
          · exact (List.nodup_append.mp hnd2).2.2 hc3 (by simp)
          · exact (List.nodup_cons.mp (List.nodup_append.mp hnd2).2.1).1 hc3
      exact helemA (hc ▸ ha)
    · -- a on B's ring is impossible: a is on A's ring
      have haA : a ∈ la :: (as ++ elem :: bs) := by
        rcases List.mem_cons.mp ha with hc2 | hc2
        · simp [hc2]
        · rcases List.mem_append.mp hc2 with hc3 | hc3
          · simp [List.mem_append, hc3]
          · simp [List.mem_append, hc3]
      exact hdisj a haA hc
/-- C9 witness: move node 1 from the ring `0 → 1 → 2 → 0` into the ring
`10 → 11 → 10` in front of node 11; the source ring is `0 → 2 → 0`. -/
theorem C9_remove_reinsert_witness :
    (reps demoHeap2 0 ([] ++ 1 :: [2]) ∧ reps demoHeap2 10 ([] ++ [11]) ∧
     (∀ a, a ∈ 0 :: ([] ++ 1 :: [2]) → a ∉ 10 :: ([] ++ [11]))) ∧
    reps (list_insert (list_remove demoHeap2 1).1 ([11].headD 10) 1) 0 ([] ++ [2]) :=
  ⟨⟨by decide, by decide, by decide⟩,
   (C9_remove_reinsert demoHeap2 0 10 1 [] [2] [] [11]
     (by decide) (by decide) (by decide)).1⟩

/-- C10: `list_replace(element, position)` puts the fresh node `element`
into the ring position of `position`; afterwards `position` is off the
ring, while its own prev/next pair is untouched and still references its
former neighbours. -/
theorem C10_replace (h : Heap) (l position element : Nat) (xs ys : List Nat)
    (hr : reps h l (xs ++ position :: ys)) (he : element ∉ l :: (xs ++ position :: ys)) :
    reps (list_replace h element position) l (xs ++ element :: ys) ∧
    position ∉ l :: (xs ++ element :: ys) ∧
    list_replace h element position position = h position ∧
    (h position).next = ys.headD l ∧ (h position).prev = lastD l xs := by
  have := reps_replace h l xs ys position element hr he
  exact ⟨this.1, this.2.1, this.2.2.1, this.2.2.2.1, this.2.2.2.2.1⟩

/-- C10 witness: replacing node 1 of the ring `0 → 1 → 2 → 0` by the fresh
node 7. -/
theorem C10_replace_witness :
    (reps demoHeap 0 ([] ++ 1 :: [2]) ∧ 7 ∉ 0 :: ([] ++ 1 :: [2])) ∧
    reps (list_replace demoHeap 7 1) 0 ([] ++ 7 :: [2]) ∧
    list_replace demoHeap 7 1 1 = demoHeap 1 :=
  ⟨⟨by decide, by decide⟩,
   (C10_replace demoHeap 0 1 7 [] [2] (by decide) (by decide)).1,
   (C10_replace demoHeap 0 1 7 [] [2] (by decide) (by decide)).2.2.1⟩

/-! ### Worlds of disjoint lists and operation sequences -/

/-- A world: a finite family of lists, each given as (header, elements). -/
abbrev World : Type := List (Nat × List Nat)

/-- All node addresses of a world: every header and every element. -/
def allNodes (w : World) : List Nat := w.flatMap (fun s => s.1 :: s.2)

/-- Total number of elements across the world. -/
def totalLen (w : World) : Nat := (w.map (fun s => s.2.length)).sum

/-- A world is well formed when every member is a well-formed ring and no
node address occurs twice across the family. -/
def worldOk (h : Heap) (w : World) : Prop :=
  (∀ s, s ∈ w → reps h s.1 s.2) ∧ (allNodes w).Nodup

instance (h : Heap) (w : World) : Decidable (worldOk h w) := by
  unfold worldOk; infer_instance

theorem allNodes_append (w1 w2 : World) :
    allNodes (w1 ++ w2) = allNodes w1 ++ allNodes w2 := by
  simp [allNodes]

theorem allNodes_cons (s : Nat × List Nat) (w : World) :
    allNodes (s :: w) = (s.1 :: s.2) ++ allNodes w := by
  simp [allNodes]

theorem mem_allNodes (w : World) (s : Nat × List Nat) (hs : s ∈ w) (a : Nat)
    (ha : a ∈ s.1 :: s.2) : a ∈ allNodes w := by
  simp only [allNodes, List.mem_flatMap]
  exact ⟨s, hs, ha⟩

theorem totalLen_append (w1 w2 : World) :
    totalLen (w1 ++ w2) = totalLen w1 + totalLen w2 := by
  simp [totalLen]

theorem totalLen_cons (s : Nat × List Nat) (w : World) :
    totalLen (s :: w) = s.2.length + totalLen w := by
  simp [totalLen]

/-- In a well-formed world shaped `w1 ++ (l, zs) :: w2`, any node of
another member list is off the ring of `(l, zs)`. -/
theorem rings_disjoint (w1 w2 : World) (l : Nat) (zs : List Nat)
    (hnd : (allNodes (w1 ++ (l, zs) :: w2)).Nodup)
    (s : Nat × List Nat) (hs : s ∈ w1 ++ w2) (a : Nat)
    (ha : a ∈ s.1 :: s.2) : a ∉ l :: zs := by
  intro hm
  rw [allNodes_append, allNodes_cons] at hnd
  rcases List.mem_append.mp hs with h1 | h2
  · have ha1 : a ∈ allNodes w1 := mem_allNodes w1 s h1 a ha
    exact (List.nodup_append.mp hnd).2.2 ha1 (by simp only [List.mem_append]; exact Or.inl hm)
  · have ha2 : a ∈ allNodes w2 := mem_allNodes w2 s h2 a ha
    have hnd2 : ((l :: zs) ++ allNodes w2).Nodup := (List.nodup_append.mp hnd).2.1
    exact (List.nodup_append.mp hnd2).2.2 hm ha2

/-- In a well-formed world shaped `w1 ++ (ls, es) :: w2 ++ (ld, fs) :: w3`,
the two distinguished rings are disjoint, and any node of another member
list is off both of them. -/
theorem rings_disjoint2 (w1 w2 w3 : World) (ls ld : Nat) (es fs : List Nat)
    (hnd : (allNodes (w1 ++ (ls, es) :: (w2 ++ (ld, fs) :: w3))).Nodup) :
    (∀ a, a ∈ ls :: es → a ∉ ld :: fs) ∧
    (∀ s, (s ∈ w1 ∨ s ∈ w2 ∨ s ∈ w3) → ∀ a, a ∈ s.1 :: s.2 →
      a ∉ ls :: es ∧ a ∉ ld :: fs) := by
  rw [allNodes_append, allNodes_cons, allNodes_append, allNodes_cons] at hnd
  have hd1 := (List.nodup_append.mp hnd).2.2
  have hndX := (List.nodup_append.mp hnd).2.1
  have hdS := (List.nodup_append.mp hndX).2.2
  have hndY := (List.nodup_append.mp hndX).2.1
  have hdA2 := (List.nodup_append.mp hndY).2.2
  have hndZ := (List.nodup_append.mp hndY).2.1
  have hdT := (List.nodup_append.mp hndZ).2.2
  constructor
  · intro a haS haT
    exact hdS haS (by simp only [List.mem_append]; exact Or.inr (Or.inl haT))
  · intro s hs a ha
    rcases hs with h1 | h2 | h3
    · have ha1 : a ∈ allNodes w1 := mem_allNodes w1 s h1 a ha
      constructor
      · intro hm
        exact hd1 ha1 (by simp only [List.mem_append]; exact Or.inl hm)
      · intro hm
        exact hd1 ha1 (by simp only [List.mem_append]; exact Or.inr (Or.inr (Or.inl hm)))
    · have ha2 : a ∈ allNodes w2 := mem_allNodes w2 s h2 a ha
      constructor
      · intro hm
        exact hdS hm (by simp only [List.mem_append]; exact Or.inl ha2)
      · intro hm
        exact hdA2 ha2 (by simp only [List.mem_append]; exact Or.inl hm)
    · have ha3 : a ∈ allNodes w3 := mem_allNodes w3 s h3 a ha
      constructor
      · intro hm
        exact hdS hm (by simp only [List.mem_append]; exact Or.inr (Or.inr ha3))
      · intro hm
        exact hdT hm ha3

/-- One list operation on a world, with its precondition built in:
`insert` adds a fresh node at a split point of a member list, `remove`
unlinks a member node, `splice` moves a non-empty contiguous run between
two distinct member lists, `spliceNil` is the empty-range splice, and
`reorder` is pure bookkeeping (the heap is unchanged). The last integer is
the net number of nodes inserted. -/
inductive Step : Heap → World → Heap → World → Int → Prop where
  | insert (h : Heap) (w1 w2 : World) (l elem : Nat) (xs ys : List Nat) :
      elem ∉ allNodes (w1 ++ (l, xs ++ ys) :: w2) →
      Step h (w1 ++ (l, xs ++ ys) :: w2)
        (list_insert h (ys.headD l) elem)
        (w1 ++ (l, xs ++ elem :: ys) :: w2) 1
  | remove (h : Heap) (w1 w2 : World) (l elem : Nat) (xs ys : List Nat) :
      Step h (w1 ++ (l, xs ++ elem :: ys) :: w2)
        (list_remove h elem).1
        (w1 ++ (l, xs ++ ys) :: w2) (-1)
  | splice (h : Heap) (w1 w2 w3 : World) (ls ld f : Nat) (as r' bs cs ds : List Nat) :
      Step h (w1 ++ (ls, as ++ (f :: r') ++ bs) :: (w2 ++ (ld, cs ++ ds) :: w3))
        (list_splice h (ds.headD ld) f (bs.headD ls))
        (w1 ++ (ls, as ++ bs) :: (w2 ++ (ld, cs ++ (f :: r') ++ ds) :: w3)) 0
  | spliceNil (h : Heap) (w : World) (before q : Nat) :
      Step h w (list_splice h before q q) w 0
  | reorder (h : Heap) (w w' : World) : w.Perm w' → Step h w h w' 0

/-- A finite sequence of operations, accumulating the net insertion count. -/
inductive Steps : Heap → World → Heap → World → Int → Prop where
  | refl (h : Heap) (w : World) : Steps h w h w 0
  | tail {ha : Heap} {wa : World} {hb : Heap} {wb : World} {hc : Heap} {wc : World}
      {m n : Int} : Steps ha wa hb wb m → Step hb wb hc wc n → Steps ha wa hc wc (m + n)

/-- Every single operation preserves world well-formedness, and changes the
total element count by exactly its net insertion count. -/
theorem step_ok (h : Heap) (w1 : World) (h2 : Heap) (w2 : World) (n : Int)
    (hst : Step h w1 h2 w2 n) (hok : worldOk h w1) :
    worldOk h2 w2 ∧ (totalLen w2 : Int) = totalLen w1 + n := by
  obtain ⟨hreps, hnd⟩ := hok
  cases hst with
  | insert wa wb l elem xs ys hfresh =>
    have hmid : ((l, xs ++ ys) : Nat × List Nat) ∈ wa ++ (l, xs ++ ys) :: wb := by simp
    have hr : reps h l (xs ++ ys) := hreps _ hmid
    have he : elem ∉ l :: (xs ++ ys) :=
      fun hm => hfresh (mem_allNodes _ _ hmid _ hm)
    have hins := reps_insert h l xs ys elem hr he
    have hframe : ∀ s, s ∈ wa ++ wb →
        reps (list_insert h (ys.headD l) elem) s.1 s.2 := by
      intro s hs
      have hsold : s ∈ wa ++ (l, xs ++ ys) :: wb := by
        rcases List.mem_append.mp hs with hc | hc
        · exact List.mem_append.mpr (Or.inl hc)
        · exact List.mem_append.mpr (Or.inr (List.mem_cons_of_mem _ hc))
      refine (reps_congr h _ s.1 s.2 ?_).mpr (hreps s hsold)
      intro a ha
      apply hins.2
      intro hm
      rcases List.mem_cons.mp hm with hc | hc
      · exact hfresh (hc ▸ mem_allNodes _ _ hsold _ ha)
      · exact rings_disjoint wa wb l (xs ++ ys) hnd s hs a ha hc
    refine ⟨⟨?_, ?_⟩, ?_⟩
    · intro s hs
      rcases List.mem_append.mp hs with hc | hc
      · exact hframe s (List.mem_append.mpr (Or.inl hc))
      · rcases List.mem_cons.mp hc with heq | hc2
        · rw [heq]
          exact hins.1
        · exact hframe s (List.mem_append.mpr (Or.inr hc2))
    · have hperm : (allNodes (wa ++ (l, xs ++ elem :: ys) :: wb)).Perm
          (elem :: allNodes (wa ++ (l, xs ++ ys) :: wb)) := by
        rw [List.perm_iff_count]
        intro c
        simp [allNodes_append, allNodes_cons, List.count_append, List.count_cons]
        omega
      exact hperm.nodup_iff.mpr (List.nodup_cons.mpr ⟨hfresh, hnd⟩)
    · simp only [totalLen_append, totalLen_cons, List.length_append, List.length_cons]
      push_cast
      omega
  | remove wa wb l elem xs ys =>
    have hmid : ((l, xs ++ elem :: ys) : Nat × List Nat) ∈ wa ++ (l, xs ++ elem :: ys) :: wb := by
      simp
    have hr : reps h l (xs ++ elem :: ys) := hreps _ hmid
    have hrm := reps_remove h l xs ys elem hr
    have hframe : ∀ s, s ∈ wa ++ wb → reps (list_remove h elem).1 s.1 s.2 := by
      intro s hs
      have hsold : s ∈ wa ++ (l, xs ++ elem :: ys) :: wb := by
        rcases List.mem_append.mp hs with hc | hc
        · exact List.mem_append.mpr (Or.inl hc)
        · exact List.mem_append.mpr (Or.inr (List.mem_cons_of_mem _ hc))
      refine (reps_congr h _ s.1 s.2 ?_).mpr (hreps s hsold)
      intro a ha
      exact hrm.2.2.2.2 a (rings_disjoint wa wb l (xs ++ elem :: ys) hnd s hs a ha)
    refine ⟨⟨?_, ?_⟩, ?_⟩
    · intro s hs
      rcases List.mem_append.mp hs with hc | hc
      · exact hframe s (List.mem_append.mpr (Or.inl hc))
      · rcases List.mem_cons.mp hc with heq | hc2
        · rw [heq]
          exact hrm.2.1
        · exact hframe s (List.mem_append.mpr (Or.inr hc2))
    · have hperm : (allNodes (wa ++ (l, xs ++ elem :: ys) :: wb)).Perm
          (elem :: allNodes (wa ++ (l, xs ++ ys) :: wb)) := by
        rw [List.perm_iff_count]
        intro c
        simp [allNodes_append, allNodes_cons, List.count_append, List.count_cons]
        omega
      have hnd2 := hperm.nodup_iff.mp hnd
      exact (List.nodup_cons.mp hnd2).2
    · simp only [totalLen_append, totalLen_cons, List.length_append, List.length_cons]
      push_cast
      omega
  | splice wa wb wc ls ld f as r' bs cs ds =>
    have hmidS : ((ls, as ++ (f :: r') ++ bs) : Nat × List Nat)
        ∈ wa ++ (ls, as ++ (f :: r') ++ bs) :: (wb ++ (ld, cs ++ ds) :: wc) := by simp
    have hmidD : ((ld, cs ++ ds) : Nat × List Nat)
        ∈ wa ++ (ls, as ++ (f :: r') ++ bs) :: (wb ++ (ld, cs ++ ds) :: wc) := by simp
    have hrS : reps h ls (as ++ (f :: r') ++ bs) := hreps _ hmidS
    have hrD : reps h ld (cs ++ ds) := hreps _ hmidD
    have hdd := rings_disjoint2 wa wb wc ls ld (as ++ (f :: r') ++ bs) (cs ++ ds) hnd
    have hsp := reps_splice h ls ld f as r' bs cs ds hrS hrD hdd.1
    have hframe : ∀ s, (s ∈ wa ∨ s ∈ wb ∨ s ∈ wc) →
        reps (list_splice h (ds.headD ld) f (bs.headD ls)) s.1 s.2 := by
      intro s hs
      have hsold : s ∈ wa ++ (ls, as ++ (f :: r') ++ bs) :: (wb ++ (ld, cs ++ ds) :: wc) := by
        rcases hs with hc | hc | hc
        · exact List.mem_append.mpr (Or.inl hc)
        · exact List.mem_append.mpr (Or.inr (List.mem_cons_of_mem _
            (List.mem_append.mpr (Or.inl hc))))
        · exact List.mem_append.mpr (Or.inr (List.mem_cons_of_mem _
            (List.mem_append.mpr (Or.inr (List.mem_cons_of_mem _ hc)))))
      refine (reps_congr h _ s.1 s.2 ?_).mpr (hreps s hsold)
      intro a ha
      exact hsp.2.2 a (hdd.2 s hs a ha).1 (hdd.2 s hs a ha).2
    refine ⟨⟨?_, ?_⟩, ?_⟩
    · intro s hs
      rcases List.mem_append.mp hs with hc | hc
      · exact hframe s (Or.inl hc)
      · rcases List.mem_cons.mp hc with heq | hc2
        · rw [heq]
          exact hsp.1
        · rcases List.mem_append.mp hc2 with hc3 | hc3
          · exact hframe s (Or.inr (Or.inl hc3))
          · rcases List.mem_cons.mp hc3 with heq2 | hc4
            · rw [heq2]
              exact hsp.2.1
            · exact hframe s (Or.inr (Or.inr hc4))
    · have hperm : (allNodes (wa ++ (ls, as ++ bs) :: (wb ++ (ld, cs ++ (f :: r') ++ ds) :: wc))).Perm
          (allNodes (wa ++ (ls, as ++ (f :: r') ++ bs) :: (wb ++ (ld, cs ++ ds) :: wc))) := by
        rw [List.perm_iff_count]
        intro c
        simp [allNodes_append, allNodes_cons, List.count_append, List.count_cons]
        omega
      exact hperm.nodup_iff.mpr hnd
    · simp only [totalLen_append, totalLen_cons, List.length_append, List.length_cons]
      push_cast
      omega
  | spliceNil =>
    rename_i before q
    have hEq : list_splice h before q q = h := by simp [list_splice]
    rw [hEq]
    exact ⟨⟨hreps, hnd⟩, by simp⟩
  | reorder =>
    rename_i hp
    refine ⟨⟨?_, ?_⟩, ?_⟩
    · intro s hs
      exact hreps s (hp.mem_iff.mpr hs)
    · exact (hp.flatMap_right _).nodup_iff.mp hnd
    · have hlen : totalLen w1 = totalLen w2 := (hp.map _).sum_eq
      simp [hlen]

/-- C1: starting from any well-formed world of disjoint circular lists, any
finite sequence of insert / remove / splice operations whose preconditions
hold keeps every list a valid circular structure: following `next` from any
node returns to that node after one full round, `prev` is the inverse of
`next`, `list_size` returns each list's element count, and the total
element count changes by exactly the net number of inserted nodes. -/
theorem C1_sequence_invariant (ha : Heap) (wa : World) (hb : Heap) (wb : World) (n : Int)
    (hst : Steps ha wa hb wb n) (hok : worldOk ha wa) :
    worldOk hb wb ∧
    (totalLen wb : Int) = totalLen wa + n ∧
    (∀ s, s ∈ wb → ∀ a, a ∈ s.1 :: s.2 →
       iterNext hb a (s.2.length + 1) = a ∧ (hb ((hb a).next)).prev = a) ∧
    (∀ s, s ∈ wb → ∀ fuel, s.2.length ≤ fuel → list_size hb s.1 fuel = s.2.length) := by
  induction hst with
  | refl =>
    refine ⟨hok, by simp, ?_, ?_⟩
    · intro s hs a ha2
      exact ⟨reps_iterNext ha s.1 s.2 a (hok.1 s hs) ha2,
             reps_prev_inverse ha s.1 s.2 a (hok.1 s hs) ha2⟩
    · intro s hs fuel hf
      exact reps_size ha s.1 s.2 fuel (hok.1 s hs) hf
  | tail hsteps hstep ih =>
    obtain ⟨hok2, hcount, _, _⟩ := ih
    obtain ⟨hok3, hcount2⟩ := step_ok _ _ _ _ _ hstep hok2
    refine ⟨hok3, by omega, ?_, ?_⟩
    · intro s hs a ha2
      exact ⟨reps_iterNext _ s.1 s.2 a (hok3.1 s hs) ha2,
             reps_prev_inverse _ s.1 s.2 a (hok3.1 s hs) ha2⟩
    · intro s hs fuel hf
      exact reps_size _ s.1 s.2 fuel (hok3.1 s hs) hf

/-- C1 witness: one insert step on the world of the single ring
`0 → 1 → 2 → 0` yields the valid ring `0 → 1 → 2 → 5 → 0` with one more
node. -/
theorem C1_sequence_invariant_witness :
    worldOk demoHeap [(0, [1, 2])] ∧
    worldOk (list_insert demoHeap 0 5) [(0, [1, 2, 5])] ∧
    (totalLen [(0, [1, 2, 5])] : Int) = totalLen [(0, [1, 2])] + 1 := by
  have hfresh : (5 : Nat) ∉ allNodes (([] : World) ++
      ((0 : Nat), [1, 2] ++ ([] : List Nat)) :: ([] : World)) := by decide
  have hstep := Step.insert demoHeap [] [] 0 5 [1, 2] [] hfresh
  have hsteps := Steps.tail (Steps.refl demoHeap (([] : World) ++
      ((0 : Nat), [1, 2] ++ ([] : List Nat)) :: ([] : World))) hstep
  have hres := C1_sequence_invariant _ _ _ _ _ hsteps (by decide)
  refine ⟨by decide, hres.1, ?_⟩
  have h2 := hres.2.1
  simp [totalLen] at h2 ⊢
